import Mathlib

/-!
# A shallow embedding of the Blockchain-go ledger core

This file embeds, in Lean 4, the parts of the Go sources that the checked
claims speak about: byte/integer codecs, the transaction and block records,
proof-of-work validation and difficulty retargeting, the UTXO index
(`Reindex`/`Update`/`FindSpendableOutputs` and the full rescan `FindUTXO`),
signature encoding and verification, PoS block validation, the Merkle tree,
and the block-append path.

Bytes are modelled as `Nat` (values `0..255`), byte strings as `List Nat`.
Go's `big.Int` values are `Nat`/`Int` with explicit wrap-arounds where the
source converts through fixed-width machine integers.  Cryptographic
primitives (SHA-256, ECDSA verify, the P-256 scalar multiplication, gob
serialization) are taken as parameters of the embedded functions: the claims
under check are about how the code uses these primitives, not about the
primitives themselves, and every theorem below is universally quantified
over them (counterexamples instantiate them with concrete stand-ins).
-/

namespace BGo

/-! ## Byte and integer codecs -/
/-- Go `big.Int.SetBytes`: interpret a byte string as a big-endian natural
number. -/
def bytesToNat (bs : List Nat) : Nat :=
  bs.foldl (fun acc b => acc * 256 + b) 0

/-- Recursion worker of `natToBytesBE`: the first argument is a fuel bound
on the length of the division chain (`n` itself suffices, since each step
divides by 256), so the definition is structural and kernel-evaluable. -/
def natToBytesBEAux : Nat → Nat → List Nat
  | 0, _ => []
  | fuel + 1, n => if n = 0 then [] else natToBytesBEAux fuel (n / 256) ++ [n % 256]

/-- Go `big.Int.Bytes` as the source uses it (`r.Bytes()`, `s.Bytes()`):
the minimal big-endian byte representation of a natural number — the empty
string for `0`, and never a leading zero byte. -/
def natToBytesBE (n : Nat) : List Nat :=
  natToBytesBEAux n n

/-- Recursion worker of `natDecimalBytes`; the fuel bounds the division
chain, `n` itself suffices. -/
def natDecimalBytesAux : Nat → Nat → List Nat
  | 0, n => [48 + n % 10]
  | fuel + 1, n => if n < 10 then [48 + n] else natDecimalBytesAux fuel (n / 10) ++ [48 + n % 10]

/-- Decimal ASCII digits of a natural number, without sign (helper of
`intToHex`). -/
def natDecimalBytes (n : Nat) : List Nat :=
  natDecimalBytesAux n n

/-- Source `block.IntToHex`: Go's `strconv.FormatInt(num, 10)` as bytes — the ASCII
decimal representation of a signed 64-bit value (45 is the code of the minus
sign). -/
def intToHex (num : Int) : List Nat :=
  if num < 0 then 45 :: natDecimalBytes num.natAbs else natDecimalBytes num.toNat

/-- Go conversion of a signed value to `uint` (64-bit): wrap modulo `2^64`. -/
def goUintOfInt (z : Int) : Nat :=
  (z % (2 ^ 64 : Nat)).toNat

/-- Recursion worker of `bitLen`; the fuel bounds the halving chain, `n`
itself suffices. -/
def bitLenAux : Nat → Nat → Nat
  | 0, _ => 0
  | fuel + 1, n => if n = 0 then 0 else bitLenAux fuel (n / 2) + 1

/-- Go `big.Int.BitLen`: the length of the absolute value in bits; 0 for
the value 0. -/
def bitLen (n : Nat) : Nat :=
  bitLenAux n n

/-! ## Transactions (`internal/transaction`, file `part_004`) -/
/-- Source `transaction.TxInput`. `txid = []` plays Go's `nil`/empty slice and
`vout = -1` marks the coinbase sentinel. -/
structure TxInput where
  txid : List Nat
  vout : Int
  signature : List Nat
  pubKey : List Nat
  deriving DecidableEq, Repr

instance : Inhabited TxInput := ⟨⟨[], 0, [], []⟩⟩

/-- Source `transaction.TxOutput`. -/
structure TxOutput where
  value : Int
  pubKeyHash : List Nat
  deriving DecidableEq, Repr

/-- Source `transaction.Transaction`. -/
structure Transaction where
  id : List Nat
  vin : List TxInput
  vout : List TxOutput
  deriving DecidableEq, Repr

namespace Transaction

/-- Source `Transaction.IsCoinbase`: exactly one input, empty previous id, index
`-1`. -/
def isCoinbase (tx : Transaction) : Bool :=
  tx.vin.length = 1 && (tx.vin.headI.txid.length = 0 && tx.vin.headI.vout = -1)

end Transaction

/-- Source `TxOutput.IsLockedWithKey`: byte-equality of the locking hash. -/
def TxOutput.isLockedWithKey (out : TxOutput) (pubKeyHash : List Nat) : Bool :=
  out.pubKeyHash = pubKeyHash

/-! ## The chainstate bucket as an association map

bbolt buckets are byte-keyed maps; Reindex/Update read and write single
keys, so the embedding models the `chainstate` bucket as an association
list with at most one entry per key.  Two bucket states are byte-identical
iff they hold the same serialized value at every key, which (gob
serialization being injective on output lists) is lookup-extensional
equality of these maps. -/
/-- Lookup in an association map (the bucket `Get`): first entry wins. -/
def mapGet {α : Type} (m : List (List Nat × α)) (k : List Nat) : Option α :=
  (m.find? (fun e => e.1 = k)).map (fun e => e.2)

/-- Bucket `Put`: replace the entry at the key, or append a fresh one. -/
def mapPut {α : Type} (m : List (List Nat × α)) (k : List Nat) (v : α) :
    List (List Nat × α) :=
  match m with
  | [] => [(k, v)]
  | e :: rest => if e.1 = k then (k, v) :: rest else e :: mapPut rest k v

/-- Bucket `Delete`: drop every entry at the key. -/
def mapDel {α : Type} (m : List (List Nat × α)) (k : List Nat) :
    List (List Nat × α) :=
  m.filter (fun e => ¬ e.1 = k)

/-- The `chainstate` bucket: transaction id ↦ its still-spendable outputs. -/
abbrev UtxoMap := List (List Nat × List TxOutput)

/-! ## `UTXOSet.FindSpendableOutputs` (`internal/blockchain/utxo.go` 62-100)

The cursor walks the bucket entries in order; for every output locked with
the requested key while the accumulated total is still short of `amount`,
the output's value is added and its index recorded; reaching `amount`
breaks out of the inner loop (the guard `accumulated < amount` keeps the
remaining entries from accumulating anything). -/
/-- One selection: position of the chosen output inside the stored entry
list, paired with the entry's key. -/
abbrev Selection := List Nat × Nat

/-- The inner loop of `FindSpendableOutputs` over one entry's outputs:
`outIdx` counts positions, `accumulated` threads the running total; the
`break` on reaching `amount` ends the walk of this entry. -/
def spendableFromOuts (pubkeyHash : List Nat) (amount : Int) (txID : List Nat) :
    List TxOutput → Nat → Int → Int × List Selection
  | [], _, accumulated => (accumulated, [])
  | out :: rest, outIdx, accumulated =>
    if out.isLockedWithKey pubkeyHash && accumulated < amount then
      let accumulated := accumulated + out.value
      if amount ≤ accumulated then
        (accumulated, [(txID, outIdx)])
      else
        let (acc, sels) := spendableFromOuts pubkeyHash amount txID rest (outIdx + 1) accumulated
        (acc, (txID, outIdx) :: sels)
    else
      spendableFromOuts pubkeyHash amount txID rest (outIdx + 1) accumulated

/-- The outer cursor loop of `FindSpendableOutputs`. -/
def spendableFromEntries (pubkeyHash : List Nat) (amount : Int) :
    UtxoMap → Int → Int × List Selection
  | [], accumulated => (accumulated, [])
  | (txID, outs) :: rest, accumulated =>
    let (acc, sels) := spendableFromOuts pubkeyHash amount txID outs 0 accumulated
    let (acc2, sels2) := spendableFromEntries pubkeyHash amount rest acc
    (acc2, sels ++ sels2)

/-- Source `UTXOSet.FindSpendableOutputs`: returns the accumulated value and the
selected `(tx id, output position)` pairs. -/
def findSpendableOutputs (entries : UtxoMap) (pubkeyHash : List Nat) (amount : Int) :
    Int × List Selection :=
  spendableFromEntries pubkeyHash amount entries 0

/-- The output a selection points at, as stored in the walked entries. -/
def selectionOutput (entries : UtxoMap) (s : Selection) : Option TxOutput :=
  (mapGet entries s.1).bind (fun outs => outs.get? s.2)

/-! ## Signature encoding (`wallet.SignData`, `Transaction.Sign`)

Both wallet flavours (`src/wallet/wallet.go` 703-712 and the
`internal/wallet` file embedded in `src/internal/cli/cli.go` 490-499) build
the stored signature as `append(r.Bytes(), s.Bytes()...)`, and
`Transaction.Sign` (`src/unnamed/part_004` 89-131) stores that byte string
unchanged as the input's signature. -/
/-- Source `Wallet.SignData`'s encoding of an ECDSA `(r, s)` pair: the
concatenation of the two minimal big-endian representations, with no
padding. -/
def signDataEncode (r s : Nat) : List Nat :=
  natToBytesBE r ++ natToBytesBE s

/-- Modelled from the spec's words, for comparison with `signDataEncode`:
`r` and `s` each zero-padded on the left to exactly 32 bytes. -/
def fixedWidthSignature (r s : Nat) : List Nat :=
  (List.replicate (32 - (natToBytesBE r).length) 0 ++ natToBytesBE r) ++
    (List.replicate (32 - (natToBytesBE s).length) 0 ++ natToBytesBE s)

/-! ## Difficulty retargeting (`POWConsensus.getAdjustedTargetBits`,
`src/internal/consensus/pow_consensus.go` 165-200)

The arithmetic of the adjustment branch, as a pure function of the previous
block's `bits` and the measured time span.  `big.Int.Div` is Euclidean
division (`Int.ediv`); `uint(256 - bits)` wraps modulo `2^64`. -/
/-- The clamped new target of a retarget step. -/
def retargetTarget (prevBits : Int) (actualTimeTaken : Int) : Int :=
  let expectedTimeTaken : Int := 2016 * 600
  let currentTarget : Int := (2 : Int) ^ goUintOfInt (256 - prevBits)
  let newTarget : Int := currentTarget * actualTimeTaken / expectedTimeTaken
  let maxTarget : Int := currentTarget * 4
  let minTarget : Int := currentTarget / 4
  if maxTarget < newTarget then maxTarget
  else if newTarget < minTarget then minTarget
  else newTarget

/-- The `bits` value a retarget step returns: `256 − BitLen(newTarget)`,
clamped from below at 1 (the source has no upper clamp). -/
def retargetBits (prevBits : Int) (actualTimeTaken : Int) : Int :=
  let newTargetBits : Int := 256 - (bitLen (retargetTarget prevBits actualTimeTaken).toNat : Int)
  if newTargetBits < 1 then 1 else newTargetBits

/-! ## Blocks (`internal/block/block.go`) -/
/-- Source `block.Block`.  `hash` is set by the consensus; `nonce` is Go `int`,
`bits` Go `int64`, both modelled as `Int`. -/
structure Block where
  timestamp : Int
  transactions : List Transaction
  prevBlockHash : List Nat
  hash : List Nat
  nonce : Int
  bits : Int
  validatorPubKey : List Nat
  signature : List Nat
  deriving DecidableEq, Repr

/-- Source `Block.hashTransactionsInternal`: SHA-256 of the id-wise concatenation
of the block's transactions (`bytes.Join(txHashes, [])`).  `sha` is the
SHA-256 parameter. -/
def hashTransactionsInternal (sha : List Nat → List Nat) (b : Block) : List Nat :=
  sha ((b.transactions.map (fun tx => tx.id)).flatten)

/-- Source `Block.PrepareData`: the PoW header preimage
`prev ‖ txRoot ‖ ascii(ts) ‖ ascii(targetBits) ‖ ascii(nonce)`. -/
def prepareData (sha : List Nat → List Nat) (b : Block) (nonce : Int)
    (targetBits : Int) : List Nat :=
  b.prevBlockHash ++ hashTransactionsInternal sha b ++
    intToHex b.timestamp ++ intToHex targetBits ++ intToHex nonce

/-- Source `Block.GetHashableDataPoS`: the PoS header preimage — the PoW fields
followed by the validator's public key. -/
def getHashableDataPoS (sha : List Nat → List Nat) (b : Block) : List Nat :=
  b.prevBlockHash ++ hashTransactionsInternal sha b ++
    intToHex b.timestamp ++ intToHex b.bits ++ intToHex b.nonce ++
    b.validatorPubKey

/-! ## Proof of work (`internal/crypto/pow/pow.go`) -/
/-- Source `pow.ProofOfWork`: a block with the precomputed target and the bits it
was derived from. -/
structure ProofOfWork where
  block : Block
  target : Nat
  targetBits : Int

/-- Source `pow.NewProofOfWork`: `target = 1 << uint(256 − targetBits)`; the Go
conversion to `uint` wraps modulo `2^64`. -/
def newProofOfWork (b : Block) (targetBits : Int) : ProofOfWork :=
  ⟨b, 2 ^ goUintOfInt (256 - targetBits), targetBits⟩

/-- Source `ProofOfWork.Validate`: recompute the preimage from the block's stored
nonce and the instance's `targetBits`, hash it, read the digest as a
big-endian integer and compare it strictly against the target. -/
def ProofOfWork.validate (sha : List Nat → List Nat) (pow : ProofOfWork) : Bool :=
  let data := prepareData sha pow.block pow.block.nonce pow.targetBits
  let hashInt := bytesToNat (sha data)
  hashInt < pow.target

/-- Source `POWConsensus.ValidateBlock`'s proof-of-work check
(`pow_consensus.go` 59-60): build the instance from the block's own stored
`bits` and validate. -/
def powConsensusPoWCheck (sha : List Nat → List Nat) (b : Block) : Bool :=
  ( newProofOfWork b b.bits).validate sha

/-! ## Merkle tree (`internal/crypto/merkletree`)

`NewMerkleTree` duplicates the last element only at the leaf level; levels
are then paired with `nodes[i]`, `nodes[i+1]` for `i = 0, 2, 4, …` — when a
level has an odd count (which happens first at three nodes, i.e. six
leaves), `nodes[i+1]` indexes one past the end and Go panics.  `Option`
threads that panic (`none`). -/
/-- Source `merkleTree.MerkleNode`: children (`nil` for a leaf) and the node's
hash. -/
inductive MerkleNode where
  | node (left right : Option MerkleNode) (data : List Nat)
  deriving Repr

/-- The stored hash of a node (`MerkleNode.Data`). -/
def MerkleNode.data : MerkleNode → List Nat
  | .node _ _ d => d

/-- Source `merkleTree.NewMerkleNode`: a leaf hashes its datum (`nil` datum is an
error), an internal node hashes the concatenation of its children's hashes
(one missing child is an error). -/
def newMerkleNode (sha : List Nat → List Nat) :
    Option MerkleNode → Option MerkleNode → Option (List Nat) → Option MerkleNode
  | none, none, none => none
  | none, none, some d => some (.node none none (sha d))
  | some l, some r, _ => some (.node (some l) (some r) (sha (l.data ++ r.data)))
  | _, _, _ => none

/-- One `for i := 0; i < len(nodes); i += 2` pass of `NewMerkleTree`:
pairs `nodes[i]` with `nodes[i+1]`; on an odd level the final `nodes[i+1]`
is out of range — a Go runtime panic, modelled as `none`. -/
def pairUpLevel (sha : List Nat → List Nat) : List MerkleNode → Option (List MerkleNode)
  | [] => some []
  | [_] => none
  | a :: b :: rest =>
    match newMerkleNode sha (some a) (some b) none with
    | none => none
    | some n =>
      match pairUpLevel sha rest with
      | none => none
      | some lvl => some (n :: lvl)

/-- The `for len(nodes) > 1` loop of `NewMerkleTree`; the fuel (the leaf
count suffices, as every pass at least halves the level) only makes the
recursion structural. -/
def buildLevels (sha : List Nat → List Nat) : Nat → List MerkleNode → Option MerkleNode
  | 0, nodes => if 1 < nodes.length then none else nodes.head?
  | fuel + 1, nodes =>
    if 1 < nodes.length then (pairUpLevel sha nodes).bind (buildLevels sha fuel)
    else nodes.head?

/-- Source `merkleTree.NewMerkleTree`: reject empty input, duplicate the last
datum when the count is odd, build the leaves, then pair level by level up
to the root. -/
def newMerkleTree (sha : List Nat → List Nat) (data : List (List Nat)) :
    Option MerkleNode :=
  if data.length = 0 then none
  else
    let dataBlocks := if data.length % 2 ≠ 0 then data ++ [data.getLastD []] else data
    let nodes := dataBlocks.map (fun d => MerkleNode.node none none (sha d))
    buildLevels sha dataBlocks.length nodes

/-! ## Signature verification (`internal/wallet`, embedded in
`src/internal/cli/cli.go` 501-516, and `src/wallet/wallet.go` 714-736)

The `internal/wallet` package — the one imported by
`internal/transaction` (`Transaction.Verify`) and `internal/consensus`
(`PoSConsensus.ValidateBlock`) — derives the verification key with
`curve.ScalarBaseMult(pubKey)` and insists on a 64-byte signature.  The
separate `src/wallet/wallet.go` flavour splits the raw key bytes into X
and Y.  `scalarBaseMult` and `ecdsaVerify` are the curve primitives, taken
as parameters. -/
instance : Inhabited Transaction := ⟨⟨[], [], []⟩⟩

/-- Source `internal/wallet.VerifySignature` (cli.go 501-516): key :=
`ScalarBaseMult(pubKey)`; reject signatures that are not exactly 64 bytes;
split the signature at 32 and call ECDSA verify. -/
def verifySignatureInternal (scalarBaseMult : List Nat → Nat × Nat)
    (ecdsaVerify : Nat × Nat → List Nat → Nat → Nat → Bool)
    (pubKey data signature : List Nat) : Bool :=
  let key := scalarBaseMult pubKey
  if signature.length ≠ 64 then false
  else ecdsaVerify key data (bytesToNat (signature.take 32)) (bytesToNat (signature.drop 32))

/-- Source `wallet.VerifySignature` (`src/wallet/wallet.go` 714-736), which is
also the verifier the claim describes: reject empty inputs, split the
signature at its midpoint into `(r, s)` and the raw public-key bytes at
their midpoint into `(x, y)`, and call ECDSA verify on that point. -/
def verifySignatureSplitXY
    (ecdsaVerify : Nat × Nat → List Nat → Nat → Nat → Bool)
    (pubKey data signature : List Nat) : Bool :=
  if signature.length = 0 || pubKey.length = 0 then false
  else
    let sigLen := signature.length
    let r := bytesToNat (signature.take (sigLen / 2))
    let s := bytesToNat (signature.drop (sigLen / 2))
    let keyLen := pubKey.length
    let x := bytesToNat (pubKey.take (keyLen / 2))
    let y := bytesToNat (pubKey.drop (keyLen / 2))
    ecdsaVerify (x, y) data r s

/-! ## Transaction verification (`Transaction.Verify`, `part_004` 134-172)

The pure rendering: the trimmed copy threads through the loop, the two
per-input writes land on the copy, and each digest is the hash of the
copy's serialized form with the id cleared.  `gobEnc` is the gob encoder
parameter; out-of-range previous-output reads are modelled as Go zero
values (the Go panic mutates nothing, so the claims checked here are
unaffected). -/
/-- Pointwise update of one input slot (`txCopy.Vin[inID].f = …`). -/
def listModify (l : List TxInput) (i : Nat) (f : TxInput → TxInput) : List TxInput :=
  match l.get? i with
  | some v => l.set i (f v)
  | none => l

/-- Source `Transaction.TrimmedCopy`: fresh input records with cleared signature
and pubkey, fresh output records. -/
def trimmedCopy (tx : Transaction) : Transaction :=
  ⟨tx.id, tx.vin.map (fun v => ⟨v.txid, v.vout, [], []⟩),
   tx.vout.map (fun o => ⟨o.value, o.pubKeyHash⟩)⟩

/-- Source `Transaction.Hash`: SHA-256 of the canonical (gob) serialization of the
transaction with its id cleared. -/
def txHash (sha : List Nat → List Nat) (gobEnc : Transaction → List Nat)
    (tx : Transaction) : List Nat :=
  sha (gobEnc { tx with id := [] })

/-- Previous-transaction map (`map[string]Transaction`). -/
abbrev PrevMap := List (List Nat × Transaction)

/-- The per-input loop of `Transaction.Verify`: set the copy's input to
carry the referenced output's pubkey hash, hash the copy as the digest,
clear the pubkey again, and check the carried signature; the first failure
returns. -/
def verifyInputsLoop (sha : List Nat → List Nat) (gobEnc : Transaction → List Nat)
    (scalarBaseMult : List Nat → Nat × Nat)
    (ecdsaVerify : Nat × Nat → List Nat → Nat → Nat → Bool) (prevTXs : PrevMap) :
    List TxInput → Nat → Transaction → Bool
  | [], _, _ => true
  | vin :: rest, inID, txCopy =>
    if vin.txid.length = 0 then
      verifyInputsLoop sha gobEnc scalarBaseMult ecdsaVerify prevTXs rest (inID + 1) txCopy
    else
      let prevTx := (mapGet prevTXs vin.txid).getD ⟨[], [], []⟩
      let prevOut := (prevTx.vout.get? vin.vout.toNat).getD ⟨0, []⟩
      let txCopy1 := { txCopy with
        vin := listModify txCopy.vin inID
          (fun v => { v with signature := [], pubKey := prevOut.pubKeyHash }) }
      let digest := txHash sha gobEnc txCopy1
      let txCopy2 := { txCopy1 with id := digest }
      let txCopy3 := { txCopy2 with
        vin := listModify txCopy2.vin inID (fun v => { v with pubKey := [] }) }
      if verifySignatureInternal scalarBaseMult ecdsaVerify vin.pubKey digest vin.signature then
        verifyInputsLoop sha gobEnc scalarBaseMult ecdsaVerify prevTXs rest (inID + 1) txCopy3
      else false

/-- Source `Transaction.Verify`: coinbase is trivially valid; a referenced
transaction missing from `prevTXs` is an error (`none`); otherwise run the
per-input loop on the trimmed copy. -/
def transactionVerify (sha : List Nat → List Nat) (gobEnc : Transaction → List Nat)
    (scalarBaseMult : List Nat → Nat × Nat)
    (ecdsaVerify : Nat × Nat → List Nat → Nat → Nat → Bool)
    (tx : Transaction) (prevTXs : PrevMap) : Option Bool :=
  if tx.isCoinbase then some true
  else if tx.vin.any (fun v => v.txid.length ≠ 0 && (mapGet prevTXs v.txid).isNone) then none
  else some (verifyInputsLoop sha gobEnc scalarBaseMult ecdsaVerify prevTXs
    tx.vin 0 (trimmedCopy tx))

/-- Source `Transaction.ValidateTransaction`: non-empty id, inputs and outputs;
non-coinbase transactions must verify. -/
def validateTransaction (sha : List Nat → List Nat) (gobEnc : Transaction → List Nat)
    (scalarBaseMult : List Nat → Nat × Nat)
    (ecdsaVerify : Nat × Nat → List Nat → Nat → Nat → Bool)
    (tx : Transaction) (prevTXs : PrevMap) : Bool :=
  if tx.id.length = 0 then false
  else if tx.vin.length = 0 then false
  else if tx.vout.length = 0 then false
  else if tx.isCoinbase then true
  else
    match transactionVerify sha gobEnc scalarBaseMult ecdsaVerify tx prevTXs with
    | some true => true
    | _ => false

/-! ## Block structural validation (`Block.ValidateBlock`,
`internal/block/block.go` 146-196) -/
/-- Source `Block.ValidateBlock`: a genesis block is exactly one coinbase;
otherwise the block is non-empty, its first transaction is the coinbase,
and every non-coinbase transaction validates (the Go code runs these in
parallel and surfaces the first failure — the accepting behaviour is the
conjunction). -/
def blockValidateStructural (sha : List Nat → List Nat) (gobEnc : Transaction → List Nat)
    (scalarBaseMult : List Nat → Nat × Nat)
    (ecdsaVerify : Nat × Nat → List Nat → Nat → Nat → Bool)
    (b : Block) (prevTXs : PrevMap) : Bool :=
  if b.prevBlockHash.length = 0 then
    b.transactions.length = 1 && b.transactions.headI.isCoinbase
  else if b.transactions.length = 0 then false
  else if ¬ b.transactions.headI.isCoinbase then false
  else b.transactions.all (fun tx =>
    tx.isCoinbase || validateTransaction sha gobEnc scalarBaseMult ecdsaVerify tx prevTXs)

/-! ## PoS validation (`PoSConsensus.ValidateBlock`,
`internal/consensus/pos_consensus.go` 95-145) -/
/-- Source `consensus.Validator`. -/
structure Validator where
  address : List Nat
  publicKey : List Nat
  stake : Int
  deriving DecidableEq, Repr

/-- Source `PoSConsensus.ValidateBlock`: structural validation, presence of the
validator key and signature, ECDSA verification of the recomputed PoS
digest, and membership in the cached validator set with stake at least the
minimum of 100. -/
def posValidateBlock (sha : List Nat → List Nat) (gobEnc : Transaction → List Nat)
    (scalarBaseMult : List Nat → Nat × Nat)
    (ecdsaVerify : Nat × Nat → List Nat → Nat → Nat → Bool)
    (validatorSet : List Validator) (b : Block) (prevTXs : PrevMap) : Bool :=
  if ¬ blockValidateStructural sha gobEnc scalarBaseMult ecdsaVerify b prevTXs then false
  else if b.validatorPubKey.length = 0 || b.signature.length = 0 then false
  else
    let dataHash := sha (getHashableDataPoS sha b)
    if ¬ verifySignatureInternal scalarBaseMult ecdsaVerify b.validatorPubKey
        dataHash b.signature then false
    else
      match validatorSet.find? (fun v => v.publicKey = b.validatorPubKey) with
      | none => false
      | some v => if v.stake < 100 then false else true

/-! ## `Transaction.Verify` as a mutation over a store (for the frame claim)

Go passes the transaction by pointer, and `Verify` could in principle write
through it.  To check that it does not, the embedding gives every
transaction record a cell in a store; `TrimmedCopy` allocates a fresh cell,
and the loop element assignments are store writes at the copy cell,
exactly following the source lines.  The frame property is then a theorem
about which cells the writes hit, not a modelling assumption. -/
/-- A store of transaction records with a bump allocator. -/
structure TxStore where
  next : Nat
  mem : Nat → Transaction

/-- Overwrite the record at a cell. -/
def storeWrite (σ : TxStore) (r : Nat) (v : Transaction) : TxStore :=
  ⟨σ.next, fun k => if k = r then v else σ.mem k⟩

/-- Allocate a fresh cell holding `v`. -/
def storeAlloc (σ : TxStore) (v : Transaction) : TxStore × Nat :=
  (⟨σ.next + 1, fun k => if k = σ.next then v else σ.mem k⟩, σ.next)

/-- Source `Transaction.TrimmedCopy` at the store level: read the record, build
the cleared copy, put it in a fresh cell. -/
def trimmedCopyRef (σ : TxStore) (txRef : Nat) : TxStore × Nat :=
  storeAlloc σ (trimmedCopy (σ.mem txRef))

/-- The `Transaction.Verify` loop at the store level: both per-input
assignments and the id assignment write to the copy cell; the iterated
list is the snapshot that Go `range tx.Vin` takes. -/
def verifyRefLoop (sha : List Nat → List Nat) (gobEnc : Transaction → List Nat)
    (scalarBaseMult : List Nat → Nat × Nat)
    (ecdsaVerify : Nat × Nat → List Nat → Nat → Nat → Bool) (prevTXs : PrevMap)
    (copyRef : Nat) :
    List TxInput → Nat → TxStore → Bool × TxStore
  | [], _, σ => (true, σ)
  | vin :: rest, inID, σ =>
    if vin.txid.length = 0 then
      verifyRefLoop sha gobEnc scalarBaseMult ecdsaVerify prevTXs copyRef rest (inID + 1) σ
    else
      let prevTx := (mapGet prevTXs vin.txid).getD ⟨[], [], []⟩
      let prevOut := (prevTx.vout.get? vin.vout.toNat).getD ⟨0, []⟩
      let c := σ.mem copyRef
      let σ1 := storeWrite σ copyRef { c with
        vin := listModify c.vin inID
          (fun v => { v with signature := [], pubKey := prevOut.pubKeyHash }) }
      let digest := txHash sha gobEnc (σ1.mem copyRef)
      let σ2 := storeWrite σ1 copyRef { σ1.mem copyRef with id := digest }
      let σ3 := storeWrite σ2 copyRef { σ2.mem copyRef with
        vin := listModify (σ2.mem copyRef).vin inID (fun v => { v with pubKey := [] }) }
      if verifySignatureInternal scalarBaseMult ecdsaVerify vin.pubKey digest vin.signature then
        verifyRefLoop sha gobEnc scalarBaseMult ecdsaVerify prevTXs copyRef rest (inID + 1) σ3
      else (false, σ3)

/-- Source `Transaction.Verify` at the store level (`part_004` 134-172): coinbase
short-circuits, a missing referenced transaction is an error (first
component `false` standing for the error return), otherwise allocate the
trimmed copy and run the loop. -/
def transactionVerifyRef (sha : List Nat → List Nat) (gobEnc : Transaction → List Nat)
    (scalarBaseMult : List Nat → Nat × Nat)
    (ecdsaVerify : Nat × Nat → List Nat → Nat → Nat → Bool)
    (σ : TxStore) (txRef : Nat) (prevTXs : PrevMap) : Bool × TxStore :=
  let tx := σ.mem txRef
  if tx.isCoinbase then (true, σ)
  else if tx.vin.any (fun v => v.txid.length ≠ 0 && (mapGet prevTXs v.txid).isNone) then
    (false, σ)
  else
    let p := trimmedCopyRef σ txRef
    verifyRefLoop sha gobEnc scalarBaseMult ecdsaVerify prevTXs p.2 tx.vin 0 p.1

/-! ## Appending a block (`Blockchain.MineBlock`,
`internal/blockchain/blockchain.go` 140-182 and `blockchain.go.backup`
158-221; driven by `CLI.send`, `internal/cli/cli.go` 233-272)

The chain engine verifies the submitted transactions, asks the consensus to
propose and validate a block, then commits inside one bbolt `Update`
transaction: the two `Put`s are staged, `bc.tip` is assigned by a plain Go
assignment inside the closure, and the storage transaction commits last.
A closure failure rolls the staged writes back before `bc.tip` is touched;
a failure of the final commit rolls the staged writes back but cannot undo
the in-memory `bc.tip` assignment.  The consensus/resolver/codec calls and
the commit outcome are parameters; the UTXO index (`chainstate`) is a
separate bucket that `MineBlock` never writes — `CLI.send` applies
`UTXOSet.Update` only after `MineBlock` returns successfully. -/
/-- The mutable chain state the append path touches: the in-memory tip
pointer, the `blocks` bucket, and the `chainstate` (UTXO) bucket. -/
structure ChainState where
  tip : List Nat
  blocksBucket : List (List Nat × List Nat)
  chainstate : UtxoMap

/-- The bucket key `"l"` holding the last block hash. -/
def lKey : List Nat := [108]

/-- The previous-transaction map `MineBlock` builds before consensus
validation (`prevTXs[string(prevTX.ID)] = *prevTX`). -/
def resolvePrevTXs (resolvePrev : List Nat → Option Transaction)
    (txs : List Transaction) : PrevMap :=
  txs.foldl (fun m tx =>
    if tx.isCoinbase then m
    else tx.vin.foldl (fun m v =>
      match resolvePrev v.txid with
      | some prevTx => mapPut m prevTx.id prevTx
      | none => m) m) []

/-- Source `Blockchain.MineBlock`: verify each non-coinbase transaction, propose
through the consensus, resolve the previous transactions, validate through
the consensus, then commit.  `none` in the first component is the error
return; every failure before the storage transaction leaves the state
untouched, a closure (serialization) failure rolls back, and a commit
failure (`commitOk = false`) discards the staged bucket writes after the
tip assignment already ran. -/
def mineBlock (verifyTx : Transaction → Bool)
    (propose : List Transaction → List Nat → Option Block)
    (resolvePrev : List Nat → Option Transaction)
    (validate : Block → PrevMap → Option Bool)
    (serializeBlock : Block → Option (List Nat))
    (commitOk : Bool)
    (st : ChainState) (txs : List Transaction) : Option Block × ChainState :=
  if ¬ txs.all (fun tx => tx.isCoinbase || verifyTx tx) then (none, st)
  else
    match propose txs st.tip with
    | none => (none, st)
    | some newBlock =>
      if ¬ txs.all (fun tx => tx.isCoinbase ||
          tx.vin.all (fun v => (resolvePrev v.txid).isSome)) then (none, st)
      else
        match validate newBlock (resolvePrevTXs resolvePrev txs) with
        | none => (none, st)
        | some false => (none, st)
        | some true =>
          match serializeBlock newBlock with
          | none => (none, st)
          | some blockData =>
            if commitOk then
              (some newBlock, ⟨newBlock.hash,
                mapPut (mapPut st.blocksBucket newBlock.hash blockData)
                  lKey newBlock.hash, st.chainstate⟩)
            else
              (none, ⟨newBlock.hash, st.blocksBucket, st.chainstate⟩)

/-! ## The UTXO index against the full rescan (claim C2)

`Blockchain.FindUTXO` (`internal/blockchain/blockchain.go` 217-268) scans
the chain from the tip backwards, building the unspent-output map and the
spent-output map in one pass; `UTXOSet.Reindex` stores exactly that map.
`UTXOSet.Update` (`utxo.go` 139-187) drops each spent output *by its
position in the stored entry list* and then inserts the block's new
outputs.  The chain is modelled as the list of blocks' transaction lists
the iterator visits, newest first. -/
/-- The in-scan spent-output map `tx_id ↦ consumed indices`
(`spentTXOs`). -/
abbrev SpentMap := List (List Nat × List Int)

/-- Source `spentTXOs[txID]` — `nil` (empty) when the key is absent. -/
def spentGet (m : SpentMap) (k : List Nat) : List Int :=
  (mapGet m k).getD []

/-- Source `spentTXOs[inTxID] = append(spentTXOs[inTxID], in.Vout)`. -/
def spentAdd (m : SpentMap) (k : List Nat) (i : Int) : SpentMap :=
  mapPut m k (spentGet m k ++ [i])

/-- The output-position filter both scans share: keep the outputs whose
position (counted from `outIdx`) is not in `spentList`. -/
def keptOutputs (spentList : List Int) : List TxOutput → Nat → List TxOutput
  | [], _ => []
  | out :: rest, outIdx =>
    if (outIdx : Int) ∈ spentList then keptOutputs spentList rest (outIdx + 1)
    else out :: keptOutputs spentList rest (outIdx + 1)

/-- The `Outputs:` loop of `FindUTXO`: append each output whose index is
not marked spent to the entry under the transaction's id. -/
def addOutputsAux (txID : List Nat) (spentList : List Int) :
    List TxOutput → Nat → UtxoMap → UtxoMap
  | [], _, u => u
  | out :: rest, outIdx, u =>
    if (outIdx : Int) ∈ spentList then addOutputsAux txID spentList rest (outIdx + 1) u
    else addOutputsAux txID spentList rest (outIdx + 1)
      (mapPut u txID ((mapGet u txID).getD [] ++ [out]))

/-- The inputs a transaction contributes to the spent map (`FindUTXO`
records inputs only for non-coinbase transactions). -/
def txSpends (tx : Transaction) : List TxInput :=
  if tx.isCoinbase then [] else tx.vin

/-- One transaction of the `FindUTXO` scan: outputs first (filtered by the
spent map so far), then the inputs are marked spent. -/
def processTx (st : UtxoMap × SpentMap) (tx : Transaction) : UtxoMap × SpentMap :=
  (addOutputsAux tx.id (spentGet st.2 tx.id) tx.vout 0 st.1,
   (txSpends tx).foldl (fun m v => spentAdd m v.txid v.vout) st.2)

/-- One block of the `FindUTXO` scan. -/
def processBlock (st : UtxoMap × SpentMap) (txs : List Transaction) :
    UtxoMap × SpentMap :=
  txs.foldl processTx st

/-- The scan over the whole chain, newest block first. -/
def findUTXOAux (chain : List (List Transaction)) (st : UtxoMap × SpentMap) :
    UtxoMap × SpentMap :=
  chain.foldl processBlock st

/-- Source `Blockchain.FindUTXO` / the contents `UTXOSet.Reindex` stores: the
unspent-output map of a backward scan from an empty state. -/
def findUTXO (chain : List (List Transaction)) : UtxoMap :=
  (findUTXOAux chain ([], [])).1

/-- One input of `UTXOSet.Update`: load the referenced entry (a missing
entry feeds `nil` to `DeserializeOutputs`, which panics — `none`), keep the
outputs whose position differs from `vin.Vout`, delete the entry when
nothing remains, rewrite it otherwise. -/
def dropSpentOutput (u : UtxoMap) (v : TxInput) : Option UtxoMap :=
  match mapGet u v.txid with
  | none => none
  | some outs =>
    let updatedOuts := keptOutputs [v.vout] outs 0
    if updatedOuts.length = 0 then some (mapDel u v.txid)
    else some (mapPut u v.txid updatedOuts)

/-- One transaction of `UTXOSet.Update`: process the inputs (skipped for a
coinbase), then store the transaction's outputs under its id. -/
def utxoUpdateTx (u : UtxoMap) (tx : Transaction) : Option UtxoMap :=
  (if tx.isCoinbase then some u else tx.vin.foldlM dropSpentOutput u).map
    (fun u1 => mapPut u1 tx.id tx.vout)

/-- Source `UTXOSet.Update` over the block's transactions in order. -/
def utxoUpdate (u : UtxoMap) (txs : List Transaction) : Option UtxoMap :=
  txs.foldlM utxoUpdateTx u

/-- The ids of a block's transactions. -/
def blockIds (txs : List Transaction) : List (List Nat) :=
  txs.map (fun tx => tx.id)

/-- The ids of every transaction on the chain. -/
def chainIds (chain : List (List Transaction)) : List (List Nat) :=
  (chain.map blockIds).flatten

/-- The spending inputs of a block (non-coinbase transactions only). -/
def blockSpends (txs : List Transaction) : List TxInput :=
  (txs.map txSpends).flatten

/-- The spending inputs of the whole chain. -/
def chainSpends (chain : List (List Transaction)) : List TxInput :=
  (chain.map blockSpends).flatten

/-- The output indices a list of inputs consumes from transaction `t`, in
order. -/
def refsTo (vins : List TxInput) (t : List Nat) : List Int :=
  (vins.filter (fun v => v.txid = t)).map (fun v => v.vout)

/-- First transaction with the given id in a block. -/
def findTxBlock (txs : List Transaction) (t : List Nat) : Option Transaction :=
  txs.find? (fun tx => tx.id = t)

/-- First transaction with the given id on the chain. -/
def findTxChain (chain : List (List Transaction)) (t : List Nat) :
    Option Transaction :=
  chain.flatten.find? (fun tx => tx.id = t)

/-- The canonical chainstate entry the spec describes for a key: the
referenced transaction's outputs at the positions no input of the chain
consumes — present exactly when at least one such output remains.  This is
the reference side of the refinement claim; the scan `findUTXO` and the
incremental `utxoUpdate` are compared against it. -/
def specLookup (chain : List (List Transaction)) (t : List Nat) :
    Option (List TxOutput) :=
  match findTxChain chain t with
  | none => none
  | some tx =>
    let kept := keptOutputs (refsTo (chainSpends chain) t) tx.vout 0
    if kept = [] then none else some kept

/-- No input in the list references any of the given ids. -/
def NoRefsInto (vins : List TxInput) (ids : List (List Nat)) : Prop :=
  ∀ v ∈ vins, v.txid ∉ ids

/-- Well-formed chain (newest block first): transaction ids are unique,
and every spending input references a transaction in a strictly older
block — never its own block, and never a newer one. -/
def WFChain : List (List Transaction) → Prop
  | [] => True
  | blk :: rest =>
    (blockIds blk).Nodup ∧
    (∀ t ∈ blockIds blk, t ∉ chainIds rest) ∧
    NoRefsInto (blockSpends blk) (blockIds blk) ∧
    NoRefsInto (chainSpends rest) (blockIds blk) ∧
    WFChain rest

/-! ### What `Update` does to each entry -/
/-- First input of a list spending transaction `t`. -/
def findSpend (vins : List TxInput) (t : List Nat) : Option TxInput :=
  vins.find? (fun v => v.txid = t)

/-- The entry `Update` leaves at a key it drops an output from: the stored
list minus the position `v.vout`, absent when nothing remains (or when the
entry was missing — the panic case, which the no-panic hypotheses rule
out). -/
def updatedEntry (u : UtxoMap) (v : TxInput) (t : List Nat) : Option (List TxOutput) :=
  match mapGet u t with
  | some outs =>
    if keptOutputs [v.vout] outs 0 = [] then none
    else some (keptOutputs [v.vout] outs 0)
  | none => none

/-! ### The divergence run and a conforming run -/
/-- Genesis coinbase: one 50-coin output to key `[10]`. -/
def exT0 : Transaction := ⟨[0], [⟨[], -1, [], [99]⟩], [⟨50, [10]⟩]⟩

/-- Coinbase of the second block. -/
def exCb2 : Transaction := ⟨[2], [⟨[], -1, [], [98]⟩], [⟨50, [10]⟩]⟩

/-- Spends `(exT0, 0)` into two outputs: index 0 pays `[20]`, index 1 is
change to `[10]`. -/
def exT1 : Transaction := ⟨[1], [⟨[0], 0, [5], [6]⟩], [⟨10, [20]⟩, ⟨40, [10]⟩]⟩

/-- Coinbase of the third block. -/
def exCb3 : Transaction := ⟨[3], [⟨[], -1, [], [97]⟩], [⟨50, [10]⟩]⟩

/-- Spends `(exT1, 0)` — after this, `exT1`'s entry is partially spent. -/
def exT2 : Transaction := ⟨[7], [⟨[1], 0, [5], [6]⟩], [⟨10, [30]⟩]⟩

/-- Coinbase of the appended block. -/
def exCb4 : Transaction := ⟨[8], [⟨[], -1, [], [96]⟩], [⟨50, [10]⟩]⟩

/-- Spends `(exT1, 1)` — the second spend of a partially spent entry. -/
def exT3 : Transaction := ⟨[9], [⟨[1], 1, [5], [6]⟩], [⟨40, [40]⟩]⟩

/-- Three committed blocks, newest first: `exT1` partially spent by
`exT2`. -/
def exChain : List (List Transaction) := [[exCb3, exT2], [exCb2, exT1], [exT0]]

/-- The appended block whose `exT3` consumes `(exT1, 1)`. -/
def exBlock : List Transaction := [exCb4, exT3]

/-! ## Theorems -/

/-- Each inner-loop run selects, in order, outputs of the walked entry that
are locked with the requested key; the accumulator advances by exactly the
sum of the selected values, and the recorded positions address the selected
outputs inside the entry. -/
theorem spendableFromOuts_spec (ph : List Nat) (amount : Int) (txID : List Nat)
    (outs : List TxOutput) : ∀ (outIdx : Nat) (acc : Int),
    ∃ chosen : List (Nat × TxOutput),
      spendableFromOuts ph amount txID outs outIdx acc =
        (acc + (chosen.map (fun c => c.2.value)).sum,
         chosen.map (fun c => (txID, c.1))) ∧
      ∀ c ∈ chosen, outIdx ≤ c.1 ∧ outs.get? (c.1 - outIdx) = some c.2 ∧
        c.2.isLockedWithKey ph = true := by
  induction outs with
  | nil =>
    intro outIdx acc
    exact ⟨[], by simp [spendableFromOuts], by simp⟩
  | cons out rest ih =>
    intro outIdx acc
    by_cases hsel : out.isLockedWithKey ph && acc < amount
    · by_cases hfull : amount ≤ acc + out.value
      · refine ⟨[(outIdx, out)], ?_, ?_⟩
        · simp only [spendableFromOuts, hsel, if_true, hfull, if_pos]
          simp
        · intro c hc
          simp only [List.mem_singleton] at hc
          subst hc
          refine ⟨le_refl _, by simp, ?_⟩
          simp only [Bool.and_eq_true] at hsel
          exact hsel.1
      · obtain ⟨chosen, heq, hmem⟩ := ih (outIdx + 1) (acc + out.value)
        refine ⟨(outIdx, out) :: chosen, ?_, ?_⟩
        · simp only [spendableFromOuts, hsel, if_true, if_neg hfull, heq]
          simp [add_assoc]
        · intro c hc
          rcases List.mem_cons.mp hc with hc | hc
          · subst hc
            refine ⟨le_refl _, by simp, ?_⟩
            simp only [Bool.and_eq_true] at hsel
            exact hsel.1
          · obtain ⟨hle, hget, hlock⟩ := hmem c hc
            refine ⟨by omega, ?_, hlock⟩
            have : c.1 - outIdx = (c.1 - (outIdx + 1)) + 1 := by omega
            rw [this]
            simpa using hget
    · obtain ⟨chosen, heq, hmem⟩ := ih (outIdx + 1) acc
      refine ⟨chosen, ?_, ?_⟩
      · simp only [spendableFromOuts, hsel, if_false, Bool.false_eq_true, heq]
      · intro c hc
        obtain ⟨hle, hget, hlock⟩ := hmem c hc
        refine ⟨by omega, ?_, hlock⟩
        have : c.1 - outIdx = (c.1 - (outIdx + 1)) + 1 := by omega
        rw [this]
        simpa using hget

/-- Once the running total has reached `amount`, the inner loop selects
nothing and leaves the accumulator untouched. -/
theorem spendableFromOuts_capped (ph : List Nat) (amount : Int) (txID : List Nat)
    (outs : List TxOutput) : ∀ (outIdx : Nat) (acc : Int), amount ≤ acc →
    spendableFromOuts ph amount txID outs outIdx acc = (acc, []) := by
  induction outs with
  | nil => intro outIdx acc _; simp [spendableFromOuts]
  | cons out rest ih =>
    intro outIdx acc hacc
    have hguard : (out.isLockedWithKey ph && decide (acc < amount)) = false := by
      have : ¬ acc < amount := not_lt.mpr hacc
      simp [this]
    simp only [spendableFromOuts]
    rw [if_neg (by simp [hguard])]
    exact ih (outIdx + 1) acc hacc

/-- Once the running total has reached `amount`, the cursor loop selects
nothing from the remaining entries. -/
theorem spendableFromEntries_capped (ph : List Nat) (amount : Int)
    (entries : UtxoMap) : ∀ acc : Int, amount ≤ acc →
    spendableFromEntries ph amount entries acc = (acc, []) := by
  induction entries with
  | nil => intro acc _; simp [spendableFromEntries]
  | cons e rest ih =>
    intro acc hacc
    simp only [spendableFromEntries, spendableFromOuts_capped ph amount e.1 e.2 0 acc hacc,
      ih acc hacc, List.append_nil]

/-- The cursor loop: selections come from walked entries, are locked with
the key, and the accumulator moves by exactly their summed value. -/
theorem spendableFromEntries_spec (ph : List Nat) (amount : Int)
    (entries : UtxoMap) : ∀ acc : Int,
    ∃ chosen : List (Selection × TxOutput),
      spendableFromEntries ph amount entries acc =
        (acc + (chosen.map (fun c => c.2.value)).sum, chosen.map (fun c => c.1)) ∧
      ∀ c ∈ chosen,
        (∃ outs, (c.1.1, outs) ∈ entries ∧ outs.get? c.1.2 = some c.2) ∧
        c.2.isLockedWithKey ph = true := by
  induction entries with
  | nil => intro acc; exact ⟨[], by simp [spendableFromEntries], by simp⟩
  | cons e rest ih =>
    intro acc
    obtain ⟨chosen1, heq1, hmem1⟩ := spendableFromOuts_spec ph amount e.1 e.2 0 acc
    obtain ⟨chosen2, heq2, hmem2⟩ := ih (acc + (chosen1.map (fun c => c.2.value)).sum)
    refine ⟨chosen1.map (fun c => ((e.1, c.1), c.2)) ++ chosen2, ?_, ?_⟩
    · simp only [spendableFromEntries, heq1, heq2, Prod.mk.injEq]
      refine ⟨?_, ?_⟩
      · simp only [List.map_append, List.sum_append, List.map_map, Function.comp_def, add_assoc]
      · simp only [List.map_append, List.map_map, Function.comp_def]
    · intro c hc
      rcases List.mem_append.mp hc with hc | hc
      · obtain ⟨c1, hc1, rfl⟩ := List.mem_map.mp hc
        obtain ⟨_, hget, hlock⟩ := hmem1 c1 hc1
        exact ⟨⟨e.2, List.mem_cons_self _ _, by simpa using hget⟩, hlock⟩
      · obtain ⟨⟨outs, houts, hget⟩, hlock⟩ := hmem2 c hc
        exact ⟨⟨outs, List.mem_cons_of_mem _ houts, hget⟩, hlock⟩

/-- C9.  Every output selected by `FindSpendableOutputs` is stored in a
walked `chainstate` entry and is locked with the given public-key hash; the
returned accumulated value is exactly the sum of the selected outputs'
values; and once the running total has reached `amount`, no further output
is accumulated from the remaining entries. -/
theorem findSpendableOutputs_correct (entries : UtxoMap) (pubkeyHash : List Nat)
    (amount : Int) :
    (∃ chosen : List (Selection × TxOutput),
      findSpendableOutputs entries pubkeyHash amount =
        ((chosen.map (fun c => c.2.value)).sum, chosen.map (fun c => c.1)) ∧
      ∀ c ∈ chosen,
        (∃ outs, (c.1.1, outs) ∈ entries ∧ outs.get? c.1.2 = some c.2) ∧
        c.2.isLockedWithKey pubkeyHash = true) ∧
    (∀ acc : Int, amount ≤ acc →
      spendableFromEntries pubkeyHash amount entries acc = (acc, [])) := by
  constructor
  · obtain ⟨chosen, heq, hmem⟩ := spendableFromEntries_spec pubkeyHash amount entries 0
    exact ⟨chosen, by simpa [findSpendableOutputs] using heq, hmem⟩
  · exact spendableFromEntries_capped pubkeyHash amount entries

/-- C9 witness: the theorem applied at a concrete index state — an entry
holding two outputs locked with key `[7]`, requesting amount `10`, with a
running total already at the cap. -/
theorem findSpendableOutputs_correct_witness :
    spendableFromEntries [7] 10 [([1], [⟨6, [7]⟩, ⟨8, [7]⟩])] 10 = (10, []) :=
  (findSpendableOutputs_correct [([1], [⟨6, [7]⟩, ⟨8, [7]⟩])] [7] 10).2 10 (le_refl 10)

/-- Source `natToBytesBEAux` emits at most `k` bytes for inputs below `256 ^ k`
(whatever the fuel). -/
theorem natToBytesBEAux_length_le (fuel : Nat) : ∀ (n k : Nat), n < 256 ^ k →
    (natToBytesBEAux fuel n).length ≤ k := by
  induction fuel with
  | zero => intro n k _; simp [natToBytesBEAux]
  | succ fuel ih =>
    intro n k hn
    by_cases h0 : n = 0
    · simp [natToBytesBEAux, h0]
    · have hk : k ≠ 0 := by
        intro hk; rw [hk] at hn; simp at hn; omega
      obtain ⟨k', rfl⟩ : ∃ k', k = k' + 1 := ⟨k - 1, by omega⟩
      have hdiv : n / 256 < 256 ^ k' := by
        rw [Nat.div_lt_iff_lt_mul (by norm_num)]
        calc n < 256 ^ (k' + 1) := hn
        _ = 256 ^ k' * 256 := by ring
      simp only [natToBytesBEAux, h0, if_neg, if_false]
      rw [List.length_append]
      have := ih (n / 256) k' hdiv
      simp
      omega

/-- C5 counterexample: for the 31-byte value `r = 2^248 - 1` (and a full
32-byte `s`), the stored signature has 63 bytes — the encoding is not the
claimed fixed-width 64-byte `r ‖ s`. -/
theorem signDataEncode_not_fixed_width :
    (signDataEncode (2 ^ 248 - 1) (2 ^ 255)).length = 63 ∧
    signDataEncode (2 ^ 248 - 1) (2 ^ 255) ≠
      fixedWidthSignature (2 ^ 248 - 1) (2 ^ 255) := by
  constructor
  · decide
  · decide

/-- C5 amended.  The stored signature is `r.Bytes() ‖ s.Bytes()` with each
component in minimal big-endian form (no zero-padding): for any P-256 pair
(`r, s < 2^256`), its length is at most 64 bytes, and it falls short of 64
whenever `r` or `s` has high-order zero bytes. -/
theorem signDataEncode_length_le (r s : Nat) (hr : r < 2 ^ 256) (hs : s < 2 ^ 256) :
    (signDataEncode r s).length ≤ 64 := by
  have h1 : (natToBytesBE r).length ≤ 32 :=
    natToBytesBEAux_length_le r r 32 (by norm_num at hr ⊢; omega)
  have h2 : (natToBytesBE s).length ≤ 32 :=
    natToBytesBEAux_length_le s s 32 (by norm_num at hs ⊢; omega)
  simp only [signDataEncode, List.length_append]
  omega

/-- C5 witness: the amended bound applied at the concrete pair from the
counterexample. -/
theorem signDataEncode_length_le_witness :
    (signDataEncode (2 ^ 248 - 1) (2 ^ 255)).length ≤ 64 :=
  signDataEncode_length_le (2 ^ 248 - 1) (2 ^ 255) (by norm_num) (by norm_num)

/-- C3 counterexample: at `prevBits = 255` with a zero measured span the
clamped target is `0` (the min clamp `2 / 4` vanishes under integer
division), so the derived `bits` is `256 − BitLen(0) = 256`, outside the
claimed interval `[1, 255]`. -/
theorem retargetBits_escapes_255 :
    retargetBits 255 0 = 256 ∧ ¬ (retargetBits 255 0 ≤ 255) := by
  constructor
  · decide
  · decide

/-- C3 amended.  Across a retarget from `prevBits ∈ [1, 256]`, the new
target lies within `[⌊old/4⌋, 4·old]` of the previous block's target
`old = 2^(256 − prevBits)` (the lower bound is the source's integer
division, which reaches below `old/4` only for `prevBits ≥ 255`), and the
resulting `bits` value lies in `[1, 256]` — the source clamps only from
below, so `bits = 256` is reachable when the clamped target is zero. -/
theorem retargetBits_bounds (prevBits actualTimeTaken : Int)
    (h1 : 1 ≤ prevBits) (h2 : prevBits ≤ 256) :
    ((2 : Int) ^ (256 - prevBits).toNat) / 4 ≤ retargetTarget prevBits actualTimeTaken ∧
    retargetTarget prevBits actualTimeTaken ≤ 4 * (2 : Int) ^ (256 - prevBits).toNat ∧
    1 ≤ retargetBits prevBits actualTimeTaken ∧
    retargetBits prevBits actualTimeTaken ≤ 256 := by
  have hwrap : goUintOfInt (256 - prevBits) = (256 - prevBits).toNat := by
    unfold goUintOfInt
    have hb : (0 : Int) ≤ 256 - prevBits := by omega
    have hlt : 256 - prevBits < (2 : Int) ^ 64 := by
      have : ((2 : Int) ^ 64) = ((2 ^ 64 : Nat) : Int) := by norm_num
      omega
    rw [Int.emod_eq_of_lt hb (by push_cast; omega)]
  set old : Int := (2 : Int) ^ (256 - prevBits).toNat with hold
  have hpos : 0 < old := by positivity
  have htt : retargetTarget prevBits actualTimeTaken =
      (if old * 4 < old * actualTimeTaken / (2016 * 600) then old * 4
       else if old * actualTimeTaken / (2016 * 600) < old / 4 then old / 4
       else old * actualTimeTaken / (2016 * 600)) := by
    simp only [retargetTarget, hwrap, hold]
  refine ⟨?_, ?_, ?_, ?_⟩
  · rw [htt]
    split
    · omega
    · split
      · exact le_refl _
      · omega
  · rw [htt]
    split
    · omega
    · split
      · omega
      · omega
  · simp only [retargetBits]
    split
    · exact le_refl _
    · omega
  · simp only [retargetBits]
    split
    · omega
    · have hsz : (0 : Int) ≤ (bitLen (retargetTarget prevBits actualTimeTaken).toNat : Int) :=
        Int.ofNat_nonneg _
      omega

/-- C3 witness: the amended bounds applied at `prevBits = 255`,
`actualTimeTaken = 0` — the counterexample run, whose `bits` is exactly the
new upper bound 256. -/
theorem retargetBits_bounds_witness :
    1 ≤ retargetBits 255 0 ∧ retargetBits 255 0 ≤ 256 :=
  ⟨(retargetBits_bounds 255 0 (by norm_num) (by norm_num)).2.2.1,
   (retargetBits_bounds 255 0 (by norm_num) (by norm_num)).2.2.2⟩

/-- C1.  PoW validation accepts a block exactly when the SHA-256 of the PoW
header preimage `prepareData(nonce, bits)`, read as a big-endian integer,
is strictly below `1 <<< (256 − bits)`, with the target re-derived from the
block's own stored `bits`; stated for any hash function `sha` and any
`bits` in the `int64` range not exceeding 256 (so that the claim's target
formula is defined). -/
theorem powCheck_iff_hash_lt_target (sha : List Nat → List Nat) (b : Block)
    (hlo : -(2 ^ 63) ≤ b.bits) (hhi : b.bits ≤ 256) :
    powConsensusPoWCheck sha b = true ↔
      bytesToNat (sha (prepareData sha b b.nonce b.bits)) <
        2 ^ ((256 : Int) - b.bits).toNat := by
  have hwrap : goUintOfInt (256 - b.bits) = ((256 : Int) - b.bits).toNat := by
    unfold goUintOfInt
    have hb : (0 : Int) ≤ 256 - b.bits := by omega
    have hlt : 256 - b.bits < ((2 ^ 64 : Nat) : Int) := by push_cast; omega
    rw [Int.emod_eq_of_lt hb hlt]
  simp only [powConsensusPoWCheck, ProofOfWork.validate, newProofOfWork, hwrap,
    decide_eq_true_eq]

/-- C1 witness: the equivalence applied at a concrete block (stored
`bits = 24`) and a concrete stand-in hash function. -/
theorem powCheck_iff_hash_lt_target_witness :
    powConsensusPoWCheck (fun _ => [0])
      ⟨0, [], [], [], 5, 24, [], []⟩ = true :=
  (powCheck_iff_hash_lt_target (fun _ => [0]) ⟨0, [], [], [], 5, 24, [], []⟩
    (by norm_num) (by norm_num)).mpr (by norm_num [bytesToNat])

/-- C4.  Building a Merkle tree over five data blocks fails for every hash
function: the odd leaf count is padded to six leaves, the first pass leaves
three nodes, and the next pass reads `nodes[3]` out of range — a Go runtime
panic instead of the per-level last-element duplication the claim
describes. -/
theorem newMerkleTree_five_blocks_panics (sha : List Nat → List Nat) :
    newMerkleTree sha [[1], [2], [3], [4], [5]] = none := by
  simp [newMerkleTree, buildLevels, pairUpLevel, newMerkleNode]

/-- C6 counterexample: a curve assignment and input on which the two
verifiers disagree — the `internal/wallet` verifier feeds `ScalarBaseMult`'s
point to ECDSA verify, not the X‖Y split of the carried key bytes, so the
claim's description of the verification path is false for the code that
transaction inputs and PoS blocks actually use. -/
theorem verifySignature_uses_scalarBaseMult :
    verifySignatureInternal (fun _ => (0, 0)) (fun k _ _ _ => k.1 == 1)
      [1, 0] [] (List.replicate 64 0) = false ∧
    verifySignatureSplitXY (fun k _ _ _ => k.1 == 1)
      [1, 0] [] (List.replicate 64 0) = true := by
  constructor
  · decide
  · decide

/-- C6 amended.  The verifier on the transaction-input and PoS paths
(`internal/wallet.VerifySignature`) accepts only 64-byte signatures and
calls ECDSA verify on the point `ScalarBaseMult(pubKey)` — the raw key
bytes are treated as a scalar, not split into X and Y coordinates; in
particular an accepted PoS block carries a 64-byte signature that ECDSA
verify accepted against the `ScalarBaseMult`-derived point. -/
theorem verifySignatureInternal_spec (sha : List Nat → List Nat)
    (gobEnc : Transaction → List Nat) (scalarBaseMult : List Nat → Nat × Nat)
    (ecdsaVerify : Nat × Nat → List Nat → Nat → Nat → Bool)
    (pubKey data signature : List Nat) :
    (verifySignatureInternal scalarBaseMult ecdsaVerify pubKey data signature =
      if signature.length = 64 then
        ecdsaVerify (scalarBaseMult pubKey) data
          (bytesToNat (signature.take 32)) (bytesToNat (signature.drop 32))
      else false) ∧
    (∀ (validatorSet : List Validator) (b : Block) (prevTXs : PrevMap),
      posValidateBlock sha gobEnc scalarBaseMult ecdsaVerify validatorSet b prevTXs = true →
      b.signature.length = 64 ∧
      ecdsaVerify (scalarBaseMult b.validatorPubKey) (sha (getHashableDataPoS sha b))
        (bytesToNat (b.signature.take 32)) (bytesToNat (b.signature.drop 32)) = true) := by
  have hchar : ∀ pk d sig, verifySignatureInternal scalarBaseMult ecdsaVerify pk d sig =
      if sig.length = 64 then
        ecdsaVerify (scalarBaseMult pk) d
          (bytesToNat (sig.take 32)) (bytesToNat (sig.drop 32))
      else false := by
    intro pk d sig
    unfold verifySignatureInternal
    by_cases h : sig.length = 64
    · simp [h]
    · simp [h]
  refine ⟨hchar pubKey data signature, ?_⟩
  intro validatorSet b prevTXs hacc
  unfold posValidateBlock at hacc
  by_cases hv : verifySignatureInternal scalarBaseMult ecdsaVerify b.validatorPubKey
      (sha (getHashableDataPoS sha b)) b.signature = true
  · rw [hchar] at hv
    by_cases hlen : b.signature.length = 64
    · rw [if_pos hlen] at hv
      exact ⟨hlen, hv⟩
    · rw [if_neg hlen] at hv
      exact absurd hv (by simp)
  · simp [hv] at hacc

/-- C6 witness: the amended statement instantiated at an accepted concrete
PoS block (all-accepting curve stand-ins, a genesis block signed by a
staked validator). -/
theorem verifySignatureInternal_spec_witness :
    (⟨0, [⟨[9], [⟨[], -1, [], [99]⟩], [⟨50, [10]⟩]⟩], [], [], 0, 0, [1],
      List.replicate 64 0⟩ : Block).signature.length = 64 :=
  ((verifySignatureInternal_spec (fun _ => [0]) (fun _ => []) (fun _ => (0, 0))
      (fun _ _ _ _ => true) [] [] []).2
    [⟨[], [1], 1000⟩]
    ⟨0, [⟨[9], [⟨[], -1, [], [99]⟩], [⟨50, [10]⟩]⟩], [], [], 0, 0, [1],
      List.replicate 64 0⟩
    [] (by decide)).1

/-- C8.  PoS block validation accepts exactly when the block passes
structural validation, carries a non-empty validator key and signature,
ECDSA verification of the signature succeeds over the recomputed SHA-256
digest of the PoS header view, and the signing validator is found in the
active set with stake at least 100; any failure rejects. -/
theorem posValidateBlock_iff (sha : List Nat → List Nat) (gobEnc : Transaction → List Nat)
    (scalarBaseMult : List Nat → Nat × Nat)
    (ecdsaVerify : Nat × Nat → List Nat → Nat → Nat → Bool)
    (validatorSet : List Validator) (b : Block) (prevTXs : PrevMap) :
    posValidateBlock sha gobEnc scalarBaseMult ecdsaVerify validatorSet b prevTXs = true ↔
      blockValidateStructural sha gobEnc scalarBaseMult ecdsaVerify b prevTXs = true ∧
      b.validatorPubKey ≠ [] ∧ b.signature ≠ [] ∧
      verifySignatureInternal scalarBaseMult ecdsaVerify b.validatorPubKey
        (sha (getHashableDataPoS sha b)) b.signature = true ∧
      ∃ v, validatorSet.find? (fun v => v.publicKey = b.validatorPubKey) = some v ∧
        100 ≤ v.stake := by
  unfold posValidateBlock
  by_cases hs : blockValidateStructural sha gobEnc scalarBaseMult ecdsaVerify b prevTXs = true <;>
    by_cases hpk : b.validatorPubKey = [] <;>
    by_cases hsig : b.signature = [] <;>
    by_cases hv : verifySignatureInternal scalarBaseMult ecdsaVerify b.validatorPubKey
      (sha (getHashableDataPoS sha b)) b.signature = true <;>
    rcases hfind : validatorSet.find? (fun v => v.publicKey = b.validatorPubKey) with _ | v <;>
    simp [hs, hpk, hsig, hv, hfind, not_lt]

/-- The verify loop writes only at the copy cell. -/
theorem verifyRefLoop_frame (sha : List Nat → List Nat) (gobEnc : Transaction → List Nat)
    (scalarBaseMult : List Nat → Nat × Nat)
    (ecdsaVerify : Nat × Nat → List Nat → Nat → Nat → Bool) (prevTXs : PrevMap)
    (copyRef : Nat) (vins : List TxInput) : ∀ (inID : Nat) (σ : TxStore) (r : Nat),
    r ≠ copyRef →
    ((verifyRefLoop sha gobEnc scalarBaseMult ecdsaVerify prevTXs copyRef
      vins inID σ).2).mem r = σ.mem r := by
  induction vins with
  | nil => intro inID σ r _; rfl
  | cons vin rest ih =>
    intro inID σ r hr
    unfold verifyRefLoop
    by_cases hcb : vin.txid.length = 0
    · simp only [hcb, if_true, if_pos]
      exact ih (inID + 1) σ r hr
    · simp only [hcb, if_neg, if_false]
      split
      · rw [ih _ _ r hr]
        simp [storeWrite, hr]
      · simp [storeWrite, hr]

/-- C10.  `Transaction.Verify` leaves the transaction unchanged: for every
allocated transaction cell, the store after the call holds the same record
(id, all input fields including signatures and public keys, and all
outputs) as before, whether verification succeeds or fails — all writes
land on the freshly allocated trimmed copy. -/
theorem transactionVerifyRef_frame (sha : List Nat → List Nat)
    (gobEnc : Transaction → List Nat) (scalarBaseMult : List Nat → Nat × Nat)
    (ecdsaVerify : Nat × Nat → List Nat → Nat → Nat → Bool)
    (σ : TxStore) (txRef : Nat) (prevTXs : PrevMap) (halloc : txRef < σ.next) :
    ((transactionVerifyRef sha gobEnc scalarBaseMult ecdsaVerify σ txRef
      prevTXs).2).mem txRef = σ.mem txRef := by
  unfold transactionVerifyRef
  simp only []
  by_cases h1 : (σ.mem txRef).isCoinbase = true
  · simp only [h1, if_true, if_pos]
  · rw [if_neg h1]
    by_cases h2 : ((σ.mem txRef).vin.any fun v =>
        decide (v.txid.length ≠ 0) && (mapGet prevTXs v.txid).isNone) = true
    · rw [if_pos h2]
    · rw [if_neg h2]
      have hne : txRef ≠ σ.next := by omega
      rw [verifyRefLoop_frame sha gobEnc scalarBaseMult ecdsaVerify prevTXs
        (trimmedCopyRef σ txRef).2 (σ.mem txRef).vin 0 (trimmedCopyRef σ txRef).1
        txRef (by simpa [trimmedCopyRef, storeAlloc] using hne)]
      simp [trimmedCopyRef, storeAlloc, hne]

/-- C10 witness: the frame theorem applied at a concrete store holding one
non-coinbase transaction in cell 0, with concrete primitive stand-ins. -/
theorem transactionVerifyRef_frame_witness :
    ((transactionVerifyRef (fun _ => [0]) (fun _ => []) (fun _ => (0, 0))
      (fun _ _ _ _ => true)
      ⟨1, fun _ => ⟨[1], [⟨[2], 0, [3], [4]⟩], [⟨5, [6]⟩]⟩⟩ 0
      [([2], ⟨[2], [⟨[], -1, [], []⟩], [⟨7, [8]⟩]⟩)]).2).mem 0 =
      (⟨[1], [⟨[2], 0, [3], [4]⟩], [⟨5, [6]⟩]⟩ : Transaction) :=
  transactionVerifyRef_frame (fun _ => [0]) (fun _ => []) (fun _ => (0, 0))
    (fun _ _ _ _ => true)
    ⟨1, fun _ => ⟨[1], [⟨[2], 0, [3], [4]⟩], [⟨5, [6]⟩]⟩⟩ 0
    [([2], ⟨[2], [⟨[], -1, [], []⟩], [⟨7, [8]⟩]⟩)] (by norm_num)

/-- C7 counterexample: a run in which every step succeeds except the final
storage commit — `MineBlock` returns an error, yet the in-memory tip
pointer has moved to the new block hash, because `bc.tip` is assigned
inside the `Update` closure before the commit. -/
theorem mineBlock_commit_failure_moves_tip :
    (mineBlock (fun _ => true) (fun _ _ => some ⟨0, [], [9], [7], 0, 0, [], []⟩)
      (fun _ => none) (fun _ _ => some true) (fun _ => some []) false
      ⟨[9], [], []⟩ []).1 = none ∧
    ¬ ((mineBlock (fun _ => true) (fun _ _ => some ⟨0, [], [9], [7], 0, 0, [], []⟩)
      (fun _ => none) (fun _ _ => some true) (fun _ => some []) false
      ⟨[9], [], []⟩ []).2).tip = [9] := by
  constructor
  · rfl
  · decide

/-- C7 amended.  The UTXO index is untouched by every `MineBlock` run; if
transaction verification, consensus proposal, previous-transaction
resolution, consensus validation, or any write inside the storage
transaction fails, the blocks bucket is unchanged — and when the final
commit is not the failing step (`commitOk = true`), a failed append leaves
the whole state (tip included) exactly as it was.  Only a failure of the
final commit itself leaks a moved in-memory tip. -/
theorem mineBlock_failure_frame (verifyTx : Transaction → Bool)
    (propose : List Transaction → List Nat → Option Block)
    (resolvePrev : List Nat → Option Transaction)
    (validate : Block → PrevMap → Option Bool)
    (serializeBlock : Block → Option (List Nat))
    (commitOk : Bool) (st : ChainState) (txs : List Transaction) :
    ((mineBlock verifyTx propose resolvePrev validate serializeBlock commitOk
        st txs).2).chainstate = st.chainstate ∧
    ((mineBlock verifyTx propose resolvePrev validate serializeBlock commitOk
        st txs).1 = none →
      ((mineBlock verifyTx propose resolvePrev validate serializeBlock commitOk
        st txs).2).blocksBucket = st.blocksBucket) ∧
    (commitOk = true →
      (mineBlock verifyTx propose resolvePrev validate serializeBlock commitOk
        st txs).1 = none →
      (mineBlock verifyTx propose resolvePrev validate serializeBlock commitOk
        st txs).2 = st) := by
  unfold mineBlock
  by_cases h1 : txs.all (fun tx => tx.isCoinbase || verifyTx tx) = true
  case neg =>
    rw [if_pos h1]
    exact ⟨rfl, fun _ => rfl, fun _ _ => rfl⟩
  case pos =>
    rw [if_neg (not_not_intro h1)]
    rcases hp : propose txs st.tip with _ | newBlock <;> try dsimp only
    · exact ⟨rfl, fun _ => rfl, fun _ _ => rfl⟩
    · by_cases h2 : (txs.all (fun tx => tx.isCoinbase ||
          tx.vin.all (fun v => (resolvePrev v.txid).isSome))) = true
      case neg =>
        rw [if_pos h2]
        exact ⟨rfl, fun _ => rfl, fun _ _ => rfl⟩
      case pos =>
        rw [if_neg (not_not_intro h2)]
        rcases hval : validate newBlock (resolvePrevTXs resolvePrev txs) with _ | b <;>
          try dsimp only
        · exact ⟨rfl, fun _ => rfl, fun _ _ => rfl⟩
        · cases b <;> try dsimp only
          · exact ⟨rfl, fun _ => rfl, fun _ _ => rfl⟩
          · rcases hser : serializeBlock newBlock with _ | blockData <;> try dsimp only
            · exact ⟨rfl, fun _ => rfl, fun _ _ => rfl⟩
            · by_cases hc : commitOk = true
              · rw [if_pos hc]
                exact ⟨rfl, fun h => absurd h (by simp), fun _ h => absurd h (by simp)⟩
              · rw [if_neg hc]
                exact ⟨rfl, fun _ => rfl, fun hcommit _ => absurd hcommit hc⟩

/-- C7 witness: the amended frame applied at a concrete failed append
(transaction verification rejects the only non-coinbase transaction) with
a healthy commit — the state is returned exactly as it was. -/
theorem mineBlock_failure_frame_witness :
    (mineBlock (fun _ => false) (fun _ _ => none) (fun _ => none)
      (fun _ _ => none) (fun _ => none) true ⟨[9], [], []⟩
      [⟨[1], [⟨[2], 0, [], []⟩], [⟨1, []⟩]⟩]).2 = ⟨[9], [], []⟩ :=
  (mineBlock_failure_frame (fun _ => false) (fun _ _ => none) (fun _ => none)
    (fun _ _ => none) (fun _ => none) true ⟨[9], [], []⟩
    [⟨[1], [⟨[2], 0, [], []⟩], [⟨1, []⟩]⟩]).2.2 rfl (by decide)

/-! ### Association-map laws -/
/-- Source `Get` on a non-empty map: the head entry wins at its key. -/
theorem mapGet_cons {α : Type} (e : List Nat × α) (rest : List (List Nat × α))
    (k : List Nat) :
    mapGet (e :: rest) k = if e.1 = k then some e.2 else mapGet rest k := by
  unfold mapGet
  by_cases h : e.1 = k
  · rw [List.find?_cons_of_pos _ (by simpa using h), if_pos h]
    rfl
  · rw [List.find?_cons_of_neg _ (by simpa using h), if_neg h]

/-- Source `Put` then `Get` at the same key. -/
theorem mapGet_put_self {α : Type} (m : List (List Nat × α)) (k : List Nat) (v : α) :
    mapGet (mapPut m k v) k = some v := by
  induction m with
  | nil => simp [mapPut, mapGet_cons]
  | cons e rest ih =>
    by_cases h : e.1 = k
    · simp [mapPut, h, mapGet_cons]
    · simp [mapPut, h, mapGet_cons, ih]

/-- Source `Put` leaves other keys untouched. -/
theorem mapGet_put_ne {α : Type} (m : List (List Nat × α)) (k k2 : List Nat) (v : α)
    (h : k2 ≠ k) : mapGet (mapPut m k v) k2 = mapGet m k2 := by
  have h1 : ¬ (k = k2) := fun hc => h hc.symm
  induction m with
  | nil => simp [mapPut, mapGet_cons, h1, mapGet]
  | cons e rest ih =>
    by_cases he : e.1 = k
    · simp [mapPut, he, mapGet_cons, h1]
    · simp only [mapPut, if_neg he, mapGet_cons, ih]

/-- Source `Delete` distributes over cons. -/
theorem mapDel_cons {α : Type} (e : List Nat × α) (rest : List (List Nat × α))
    (k : List Nat) :
    mapDel (e :: rest) k = if e.1 = k then mapDel rest k else e :: mapDel rest k := by
  by_cases h : e.1 = k
  · simp [mapDel, List.filter_cons, h]
  · simp [mapDel, List.filter_cons, h]

/-- Source `Delete` then `Get` at the same key. -/
theorem mapGet_del_self {α : Type} (m : List (List Nat × α)) (k : List Nat) :
    mapGet (mapDel m k) k = none := by
  induction m with
  | nil => simp [mapDel, mapGet]
  | cons e rest ih =>
    rw [mapDel_cons]
    by_cases h : e.1 = k
    · simpa [h] using ih
    · simpa [h, mapGet_cons] using ih

/-- Source `Delete` leaves other keys untouched. -/
theorem mapGet_del_ne {α : Type} (m : List (List Nat × α)) (k k2 : List Nat)
    (h : k2 ≠ k) : mapGet (mapDel m k) k2 = mapGet m k2 := by
  induction m with
  | nil => simp [mapDel]
  | cons e rest ih =>
    rw [mapDel_cons]
    by_cases he : e.1 = k
    · have h1 : ¬ (k = k2) := fun hc => h hc.symm
      simp [he, mapGet_cons, h1, ih]
    · simp [he, mapGet_cons, ih]

/-- Source `spentAdd` appends at its key and leaves other keys untouched. -/
theorem spentGet_add (m : SpentMap) (k k2 : List Nat) (i : Int) :
    spentGet (spentAdd m k i) k2 =
      if k2 = k then spentGet m k ++ [i] else spentGet m k2 := by
  by_cases h : k2 = k
  · subst h; simp [spentAdd, spentGet, mapGet_put_self]
  · simp [spentAdd, spentGet, mapGet_put_ne m k k2 _ h, h]

/-- The spends fold accumulates, per key, exactly the input indices that
reference it, in order. -/
theorem spentGet_foldl (vins : List TxInput) : ∀ (m : SpentMap) (t : List Nat),
    spentGet (vins.foldl (fun m v => spentAdd m v.txid v.vout) m) t =
      spentGet m t ++ refsTo vins t := by
  induction vins with
  | nil => intro m t; simp [refsTo]
  | cons v rest ih =>
    intro m t
    rw [List.foldl_cons, ih]
    by_cases h : v.txid = t
    · rw [spentGet_add m v.txid t v.vout, if_pos h.symm]
      simp [refsTo, h, List.filter_cons]
    · rw [spentGet_add m v.txid t v.vout, if_neg (Ne.symm h)]
      simp [refsTo, List.filter_cons, h]

/-! ### The backward scan computes the spec entry -/
/-- Source `refsTo` distributes over appended input lists. -/
theorem refsTo_append (a b : List TxInput) (t : List Nat) :
    refsTo (a ++ b) t = refsTo a t ++ refsTo b t := by
  simp [refsTo]

/-- A list with no reference to `t` contributes no consumed indices. -/
theorem refsTo_eq_nil (vins : List TxInput) (t : List Nat)
    (h : ∀ v ∈ vins, ¬ v.txid = t) : refsTo vins t = [] := by
  simp only [refsTo, List.map_eq_nil_iff]
  exact List.filter_eq_nil_iff.mpr (by simpa using h)

/-- The inner output loop at the written key. -/
theorem addOutputsAux_lookup_self (txID : List Nat) (spentList : List Int)
    (outs : List TxOutput) : ∀ (outIdx : Nat) (u : UtxoMap),
    mapGet (addOutputsAux txID spentList outs outIdx u) txID =
      if keptOutputs spentList outs outIdx = [] then mapGet u txID
      else some ((mapGet u txID).getD [] ++ keptOutputs spentList outs outIdx) := by
  induction outs with
  | nil => intro outIdx u; simp [addOutputsAux, keptOutputs]
  | cons out rest ih =>
    intro outIdx u
    by_cases hsp : (outIdx : Int) ∈ spentList
    · simp only [addOutputsAux, keptOutputs, if_pos hsp]
      exact ih (outIdx + 1) u
    · simp only [addOutputsAux, keptOutputs, if_neg hsp]
      rw [ih (outIdx + 1) (mapPut u txID ((mapGet u txID).getD [] ++ [out]))]
      by_cases hk : keptOutputs spentList rest (outIdx + 1) = []
      · simp [hk, mapGet_put_self]
      · simp [hk, mapGet_put_self]

/-- The inner output loop leaves other keys untouched. -/
theorem addOutputsAux_lookup_ne (txID : List Nat) (spentList : List Int)
    (outs : List TxOutput) : ∀ (outIdx : Nat) (u : UtxoMap) (t : List Nat),
    t ≠ txID →
    mapGet (addOutputsAux txID spentList outs outIdx u) t = mapGet u t := by
  induction outs with
  | nil => intro outIdx u t _; rfl
  | cons out rest ih =>
    intro outIdx u t ht
    by_cases hsp : (outIdx : Int) ∈ spentList
    · simp only [addOutputsAux, if_pos hsp]
      exact ih (outIdx + 1) u t ht
    · simp only [addOutputsAux, if_neg hsp]
      rw [ih (outIdx + 1) _ t ht, mapGet_put_ne _ _ _ _ ht]

/-- Per-transaction spent map: the transaction appends exactly its own
references to `t`. -/
theorem processTx_spent (st : UtxoMap × SpentMap) (tx : Transaction) (t : List Nat) :
    spentGet (processTx st tx).2 t = spentGet st.2 t ++ refsTo (txSpends tx) t :=
  spentGet_foldl (txSpends tx) st.2 t

/-- Per-transaction unspent map at other keys. -/
theorem processTx_utxo_ne (st : UtxoMap × SpentMap) (tx : Transaction) (t : List Nat)
    (h : t ≠ tx.id) : mapGet (processTx st tx).1 t = mapGet st.1 t :=
  addOutputsAux_lookup_ne tx.id _ tx.vout 0 st.1 t h

/-- Per-transaction unspent map at the transaction's own id (fresh in the
map so far): the filtered outputs, no entry if none survive. -/
theorem processTx_utxo_self (st : UtxoMap × SpentMap) (tx : Transaction)
    (hnone : mapGet st.1 tx.id = none) :
    mapGet (processTx st tx).1 tx.id =
      if keptOutputs (spentGet st.2 tx.id) tx.vout 0 = [] then none
      else some (keptOutputs (spentGet st.2 tx.id) tx.vout 0) := by
  have h := addOutputsAux_lookup_self tx.id (spentGet st.2 tx.id) tx.vout 0 st.1
  rw [hnone] at h
  by_cases hk : keptOutputs (spentGet st.2 tx.id) tx.vout 0 = []
  · simpa [processTx, hk, hnone] using h
  · simpa [processTx, hk] using h

/-- Source `blockSpends` distributes over cons. -/
theorem blockSpends_cons (tx : Transaction) (rest : List Transaction) :
    blockSpends (tx :: rest) = txSpends tx ++ blockSpends rest := by
  simp [blockSpends]

/-- Per-block spent map: the block appends exactly its references to `t`. -/
theorem processBlock_spent (txs : List Transaction) : ∀ (st : UtxoMap × SpentMap)
    (t : List Nat),
    spentGet (processBlock st txs).2 t =
      spentGet st.2 t ++ refsTo (blockSpends txs) t := by
  induction txs with
  | nil => intro st t; simp [processBlock, blockSpends, refsTo]
  | cons tx rest ih =>
    intro st t
    rw [processBlock, List.foldl_cons, ← processBlock, ih, processTx_spent,
      blockSpends_cons, refsTo_append, List.append_assoc]

/-- Per-block unspent map at keys outside the block. -/
theorem processBlock_utxo_ne (txs : List Transaction) : ∀ (st : UtxoMap × SpentMap)
    (t : List Nat), t ∉ blockIds txs →
    mapGet (processBlock st txs).1 t = mapGet st.1 t := by
  induction txs with
  | nil => intro st t _; rfl
  | cons tx rest ih =>
    intro st t ht
    have h1 : t ≠ tx.id := fun hc => ht (by simp [blockIds, hc])
    have h2 : t ∉ blockIds rest := fun hc =>
      ht (by simp [blockIds] at hc ⊢; exact Or.inr hc)
    rw [processBlock, List.foldl_cons, ← processBlock, ih _ t h2,
      processTx_utxo_ne _ _ t h1]

/-- Per-block unspent map at a block transaction's id: when the id is
fresh, unique in the block, and nothing in the block spends it, the stored
entry holds the transaction's outputs filtered by the spent map at block
entry. -/
theorem processBlock_utxo_self (txs : List Transaction) : ∀ (st : UtxoMap × SpentMap)
    (t : List Nat) (tx : Transaction),
    findTxBlock txs t = some tx →
    mapGet st.1 t = none →
    (∀ v ∈ blockSpends txs, ¬ v.txid = t) →
    (blockIds txs).Nodup →
    mapGet (processBlock st txs).1 t =
      if keptOutputs (spentGet st.2 t) tx.vout 0 = [] then none
      else some (keptOutputs (spentGet st.2 t) tx.vout 0) := by
  induction txs with
  | nil =>
    intro st t tx hfind
    exact absurd hfind (by simp [findTxBlock])
  | cons tx0 rest ih =>
    intro st t tx hfind hnone hrefs hnodup
    by_cases h0 : tx0.id = t
    · subst h0
      have htx : tx0 = tx := by
        unfold findTxBlock at hfind
        rw [List.find?_cons_of_pos _ (by simp)] at hfind
        exact Option.some.inj hfind
      subst htx
      have hnodup2 : tx0.id ∉ blockIds rest := by
        have hh : blockIds (tx0 :: rest) = tx0.id :: blockIds rest := by simp [blockIds]
        rw [hh] at hnodup
        exact (List.nodup_cons.mp hnodup).1
      rw [processBlock, List.foldl_cons, ← processBlock,
        processBlock_utxo_ne rest _ _ hnodup2,
        processTx_utxo_self st tx0 hnone]
    · unfold findTxBlock at hfind
      rw [List.find?_cons_of_neg _ (by simpa using h0)] at hfind
      have hne : t ≠ tx0.id := fun hc => h0 hc.symm
      have hspends0 : refsTo (txSpends tx0) t = [] := by
        refine refsTo_eq_nil _ t (fun v hv => ?_)
        exact hrefs v (by rw [blockSpends_cons]; exact List.mem_append_left _ hv)
      have hnodup2 : (blockIds rest).Nodup := by
        have hh : blockIds (tx0 :: rest) = tx0.id :: blockIds rest := by simp [blockIds]
        rw [hh] at hnodup
        exact (List.nodup_cons.mp hnodup).2
      have ihx := ih (processTx st tx0) t tx hfind
        (by rw [processTx_utxo_ne _ _ t hne]; exact hnone)
        (fun v hv => hrefs v (by rw [blockSpends_cons]; exact List.mem_append_right _ hv))
        hnodup2
      rw [processBlock, List.foldl_cons, ← processBlock, ihx, processTx_spent,
        hspends0, List.append_nil]

/-- Source `findTxChain` looks in the newest block first. -/
theorem findTxChain_cons (blk : List Transaction) (rest : List (List Transaction))
    (t : List Nat) :
    findTxChain (blk :: rest) t = (findTxBlock blk t).or (findTxChain rest t) := by
  simp [findTxChain, findTxBlock, List.find?_append]

/-- A hit of `findTxBlock` pins the id and witnesses membership. -/
theorem findTxBlock_some_facts (txs : List Transaction) (t : List Nat)
    (tx : Transaction) (h : findTxBlock txs t = some tx) :
    tx.id = t ∧ t ∈ blockIds txs := by
  have h1 := List.find?_some h
  have h2 := List.mem_of_find?_eq_some h
  simp only [decide_eq_true_eq] at h1
  refine ⟨h1, ?_⟩
  subst h1
  unfold blockIds
  exact List.mem_map.mpr ⟨tx, h2, rfl⟩

/-- A miss of `findTxBlock` means the id is not in the block. -/
theorem findTxBlock_none_not_mem (txs : List Transaction) (t : List Nat)
    (h : findTxBlock txs t = none) : t ∉ blockIds txs := by
  intro hc
  obtain ⟨tx, htx, hid⟩ := List.mem_map.mp (by simpa [blockIds] using hc)
  have := List.find?_eq_none.mp h tx htx
  simp [hid] at this

/-- A hit of `findTxChain` witnesses membership of the id on the chain. -/
theorem findTxChain_mem (chain : List (List Transaction)) (t : List Nat)
    (tx : Transaction) (h : findTxChain chain t = some tx) : t ∈ chainIds chain := by
  have h1 := List.find?_some h
  have h2 := List.mem_of_find?_eq_some h
  simp only [decide_eq_true_eq] at h1
  obtain ⟨blk, hblk, htxblk⟩ := List.mem_flatten.mp h2
  subst h1
  unfold chainIds
  refine List.mem_flatten.mpr ⟨blockIds blk, ?_, ?_⟩
  · exact List.mem_map.mpr ⟨blk, hblk, rfl⟩
  · unfold blockIds
    exact List.mem_map.mpr ⟨tx, htxblk, rfl⟩

/-- Source `chainIds` distributes over cons. -/
theorem chainIds_cons (blk : List Transaction) (rest : List (List Transaction)) :
    chainIds (blk :: rest) = blockIds blk ++ chainIds rest := by
  simp [chainIds]

/-- Source `chainSpends` distributes over cons. -/
theorem chainSpends_cons (blk : List Transaction) (rest : List (List Transaction)) :
    chainSpends (blk :: rest) = blockSpends blk ++ chainSpends rest := by
  simp [chainSpends]

/-- The backward scan, started on any fresh map, reports at each chain id
exactly the spec entry (outputs filtered by the initial spent list plus
every chain reference), and leaves other keys at their initial value. -/
theorem findUTXOAux_lookup (chain : List (List Transaction)) :
    WFChain chain → ∀ (u0 : UtxoMap) (s0 : SpentMap) (t : List Nat),
    (∀ t2 ∈ chainIds chain, mapGet u0 t2 = none) →
    (findTxChain chain t = none → mapGet (findUTXOAux chain (u0, s0)).1 t = mapGet u0 t) ∧
    (∀ tx, findTxChain chain t = some tx →
      mapGet (findUTXOAux chain (u0, s0)).1 t =
        if keptOutputs (spentGet s0 t ++ refsTo (chainSpends chain) t) tx.vout 0 = []
        then none
        else some (keptOutputs (spentGet s0 t ++ refsTo (chainSpends chain) t) tx.vout 0)) := by
  induction chain with
  | nil =>
    intro _ u0 s0 t _
    exact ⟨fun _ => rfl, fun tx h => absurd h (by simp [findTxChain])⟩
  | cons blk rest ih =>
    rintro ⟨hnodup, hdisj, hself, hrestrefs, hwf⟩ u0 s0 t hu0
    have hu1 : ∀ t2 ∈ chainIds rest, mapGet (processBlock (u0, s0) blk).1 t2 = none := by
      intro t2 ht2
      have hnb : t2 ∉ blockIds blk := fun hc => hdisj t2 hc ht2
      rw [processBlock_utxo_ne blk _ t2 hnb]
      exact hu0 t2 (by rw [chainIds_cons]; exact List.mem_append_right _ ht2)
    have hstep : findUTXOAux (blk :: rest) (u0, s0) =
        findUTXOAux rest (processBlock (u0, s0) blk) := rfl
    have IH := ih hwf (processBlock (u0, s0) blk).1 (processBlock (u0, s0) blk).2 t hu1
    constructor
    · intro hnone
      rw [findTxChain_cons] at hnone
      have hb : findTxBlock blk t = none := by
        cases hfb : findTxBlock blk t with
        | none => rfl
        | some tx0 => rw [hfb] at hnone; simp [Option.or] at hnone
      have hr : findTxChain rest t = none := by
        rw [hb] at hnone; simpa [Option.or] using hnone
      rw [hstep, IH.1 hr]
      exact processBlock_utxo_ne blk _ t (findTxBlock_none_not_mem blk t hb)
    · intro tx hsome
      rw [findTxChain_cons] at hsome
      cases hfb : findTxBlock blk t with
      | some tx0 =>
        have htx : tx0 = tx := by
          rw [hfb] at hsome; simpa [Option.or] using hsome
        subst htx
        obtain ⟨hid, htmem⟩ := findTxBlock_some_facts blk t tx0 hfb
        have hrnone : findTxChain rest t = none := by
          cases hfr : findTxChain rest t with
          | none => rfl
          | some tx2 => exact absurd (findTxChain_mem rest t tx2 hfr) (hdisj t htmem)
        have hself2 : ∀ v ∈ blockSpends blk, ¬ v.txid = t := fun v hv hc =>
          hself v hv (hc ▸ htmem)
        have hrefs1 : refsTo (blockSpends blk) t = [] := refsTo_eq_nil _ _ hself2
        have hrefs2 : refsTo (chainSpends rest) t = [] :=
          refsTo_eq_nil _ _ (fun v hv hc => hrestrefs v hv (hc ▸ htmem))
        have hcalc := processBlock_utxo_self blk (u0, s0) t tx0 hfb
          (hu0 t (by rw [chainIds_cons]; exact List.mem_append_left _ htmem))
          hself2 hnodup
        rw [hstep, IH.1 hrnone, hcalc, chainSpends_cons, refsTo_append, hrefs1, hrefs2]
        simp
      | none =>
        have hr : findTxChain rest t = some tx := by
          rw [hfb] at hsome; simpa [Option.or] using hsome
        rw [hstep, IH.2 tx hr, processBlock_spent blk (u0, s0) t, chainSpends_cons,
          refsTo_append, List.append_assoc]

/-- The stored chainstate of a reindex (`FindUTXO` from an empty state)
equals the spec entry at every key, on well-formed chains. -/
theorem findUTXO_eq_spec (chain : List (List Transaction)) (hwf : WFChain chain)
    (t : List Nat) : mapGet (findUTXO chain) t = specLookup chain t := by
  have h := findUTXOAux_lookup chain hwf [] [] t (by intro t2 _; rfl)
  unfold specLookup
  cases hfind : findTxChain chain t with
  | none => simpa [findUTXO, mapGet] using h.1 hfind
  | some tx => simpa [findUTXO, spentGet, mapGet] using h.2 tx hfind

/-- An id absent from a block is never found in it. -/
theorem findTxBlock_eq_none_of_not_mem (txs : List Transaction) (t : List Nat)
    (h : t ∉ blockIds txs) : findTxBlock txs t = none := by
  refine List.find?_eq_none.mpr (fun tx htx => ?_)
  simp only [decide_eq_true_eq]
  intro hc
  exact h (by unfold blockIds; exact List.mem_map.mpr ⟨tx, htx, hc⟩)

/-- An id no input references is never found among the spends. -/
theorem findSpend_eq_none (vins : List TxInput) (t : List Nat)
    (h : ∀ v ∈ vins, ¬ v.txid = t) : findSpend vins t = none :=
  List.find?_eq_none.mpr (fun v hv => by simpa using h v hv)

/-- A hit of `findSpend` pins the referenced id and witnesses
membership. -/
theorem findSpend_some_facts (vins : List TxInput) (t : List Nat) (v : TxInput)
    (h : findSpend vins t = some v) : v.txid = t ∧ v ∈ vins := by
  have h1 := List.find?_some h
  have h2 := List.mem_of_find?_eq_some h
  simp only [decide_eq_true_eq] at h1
  exact ⟨h1, h2⟩

/-- The input fold of `Update`: with present, distinct referenced entries,
it succeeds; the key of each processed input holds the positionally
filtered entry, every other key is untouched. -/
theorem dropFold_lookup (vins : List TxInput) : ∀ (u : UtxoMap),
    (∀ v ∈ vins, (mapGet u v.txid).isSome) →
    ((vins.map (fun v => v.txid)).Nodup) →
    ∃ u1, vins.foldlM dropSpentOutput u = some u1 ∧ ∀ t,
      mapGet u1 t =
        match findSpend vins t with
        | some v => updatedEntry u v t
        | none => mapGet u t := by
  induction vins with
  | nil =>
    intro u _ _
    exact ⟨u, rfl, fun t => by simp [findSpend]⟩
  | cons v rest ih =>
    intro u hex hnodup
    obtain ⟨outs, houts⟩ := Option.isSome_iff_exists.mp (hex v (List.mem_cons_self v rest))
    have hvdrop : dropSpentOutput u v =
        some (if (keptOutputs [v.vout] outs 0).length = 0 then mapDel u v.txid
              else mapPut u v.txid (keptOutputs [v.vout] outs 0)) := by
      rw [dropSpentOutput, houts]
      by_cases hk : (keptOutputs [v.vout] outs 0).length = 0
      · simp [hk]
      · simp [hk]
    rw [List.map_cons] at hnodup
    have hn := List.nodup_cons.mp hnodup
    have hrestids : ∀ w ∈ rest, ¬ w.txid = v.txid := by
      intro w hw hc
      exact hn.1 (hc ▸ List.mem_map.mpr ⟨w, hw, rfl⟩)
    set u' := if (keptOutputs [v.vout] outs 0).length = 0 then mapDel u v.txid
              else mapPut u v.txid (keptOutputs [v.vout] outs 0) with hu'
    have hu'_ne : ∀ t, t ≠ v.txid → mapGet u' t = mapGet u t := by
      intro t ht
      rw [hu']
      by_cases hk : (keptOutputs [v.vout] outs 0).length = 0
      · rw [if_pos hk]; exact mapGet_del_ne u v.txid t ht
      · rw [if_neg hk]; exact mapGet_put_ne u v.txid t _ ht
    have hu'_self : mapGet u' v.txid =
        (if keptOutputs [v.vout] outs 0 = [] then none
         else some (keptOutputs [v.vout] outs 0)) := by
      rw [hu']
      by_cases hk : (keptOutputs [v.vout] outs 0).length = 0
      · rw [if_pos hk, if_pos (List.length_eq_zero.mp hk)]
        exact mapGet_del_self u v.txid
      · rw [if_neg hk, if_neg (fun hc => hk (by simp [hc]))]
        exact mapGet_put_self u v.txid _
    obtain ⟨u1, heq, hchar⟩ := ih u'
      (by
        intro w hw
        rw [hu'_ne w.txid (fun hc => hrestids w hw hc)]
        exact hex w (List.mem_cons_of_mem v hw))
      hn.2
    refine ⟨u1, ?_, ?_⟩
    · rw [List.foldlM_cons, hvdrop]
      exact heq
    · intro t
      rw [hchar t]
      by_cases ht : v.txid = t
      · subst ht
        rw [findSpend_eq_none rest v.txid hrestids]
        rw [show findSpend (v :: rest) v.txid = some v from
          List.find?_cons_of_pos _ (by simp)]
        rw [hu'_self]
        simp only [updatedEntry, houts]
      · rw [show findSpend (v :: rest) t = findSpend rest t from
          List.find?_cons_of_neg _ (by simpa using ht)]
        cases hfs : findSpend rest t with
        | none => exact hu'_ne t (fun hc => ht hc.symm)
        | some w =>
          simp only [updatedEntry, hu'_ne t (fun hc => ht hc.symm)]

/-- One transaction of `Update`: drops land on the referenced entries, the
transaction's own outputs are stored under its id, other keys are
untouched. -/
theorem utxoUpdateTx_lookup (u : UtxoMap) (tx : Transaction)
    (hex : ∀ v ∈ txSpends tx, (mapGet u v.txid).isSome)
    (hnodup : ((txSpends tx).map (fun v => v.txid)).Nodup) :
    ∃ u1, utxoUpdateTx u tx = some u1 ∧ ∀ t,
      mapGet u1 t =
        if tx.id = t then some tx.vout
        else match findSpend (txSpends tx) t with
          | some v => updatedEntry u v t
          | none => mapGet u t := by
  by_cases hcb : tx.isCoinbase = true
  · refine ⟨mapPut u tx.id tx.vout, by simp [utxoUpdateTx, hcb], fun t => ?_⟩
    by_cases ht : tx.id = t
    · rw [if_pos ht, ← ht, mapGet_put_self]
    · rw [if_neg ht, mapGet_put_ne u tx.id t _ (fun hc => ht hc.symm)]
      rw [show findSpend (txSpends tx) t = none from by simp [txSpends, hcb, findSpend]]
  · obtain ⟨u1, heq, hchar⟩ := dropFold_lookup tx.vin u
      (by simpa [txSpends, hcb] using hex) (by simpa [txSpends, hcb] using hnodup)
    refine ⟨mapPut u1 tx.id tx.vout, ?_, fun t => ?_⟩
    · simp [utxoUpdateTx, hcb, heq]
    · by_cases ht : tx.id = t
      · rw [if_pos ht, ← ht, mapGet_put_self]
      · rw [if_neg ht, mapGet_put_ne u1 tx.id t _ (fun hc => ht hc.symm), hchar t]
        rw [show txSpends tx = tx.vin from by simp [txSpends, hcb]]

/-- Source `UTXOSet.Update` over a block: under first-spend, distinct-reference
and fresh-id hypotheses it succeeds, stores each block transaction's
outputs under its id, replaces each referenced entry by its positionally
filtered remainder (deleting it when empty), and leaves every other key
untouched. -/
theorem utxoUpdate_lookup (txs : List Transaction) : ∀ (u : UtxoMap),
    (∀ v ∈ blockSpends txs, (mapGet u v.txid).isSome) →
    ((blockSpends txs).map (fun v => v.txid)).Nodup →
    (blockIds txs).Nodup →
    (∀ v ∈ blockSpends txs, v.txid ∉ blockIds txs) →
    (∀ tx2 ∈ txs, mapGet u tx2.id = none) →
    ∃ u1, utxoUpdate u txs = some u1 ∧ ∀ t,
      mapGet u1 t =
        match findTxBlock txs t with
        | some tx => some tx.vout
        | none =>
          match findSpend (blockSpends txs) t with
          | some v => updatedEntry u v t
          | none => mapGet u t := by
  induction txs with
  | nil =>
    intro u _ _ _ _ _
    exact ⟨u, rfl, fun t => by simp [findTxBlock, findSpend, blockSpends]⟩
  | cons tx rest ih =>
    intro u hex hsnodup hidnodup hnointra hfresh
    rw [blockSpends_cons] at hex hsnodup hnointra
    rw [List.map_append] at hsnodup
    have hsn := List.nodup_append.mp hsnodup
    obtain ⟨u1, heq1, hchar1⟩ := utxoUpdateTx_lookup u tx
      (fun v hv => hex v (List.mem_append_left _ hv)) hsn.1
    have hids : blockIds (tx :: rest) = tx.id :: blockIds rest := by simp [blockIds]
    rw [hids] at hidnodup hnointra
    have hidn := List.nodup_cons.mp hidnodup
    have hrestspend_ne_txid : ∀ v ∈ blockSpends rest, ¬ v.txid = tx.id := by
      intro v hv hc
      exact hnointra v (List.mem_append_right _ hv) (hc ▸ List.mem_cons_self _ _)
    have hleft_none : ∀ t2, t2 ∉ ({tx.id} : Set (List Nat)) →
        (∀ w ∈ txSpends tx, ¬ w.txid = t2) → mapGet u1 t2 = mapGet u t2 := by
      intro t2 ht2 hw
      rw [hchar1 t2, if_neg (fun hc => ht2 (by simp [← hc])),
        findSpend_eq_none _ _ hw]
    obtain ⟨u2, heq2, hchar2⟩ := ih u1
      (by
        intro v hv
        have hvne : ¬ tx.id = v.txid := fun hc =>
          hnointra v (List.mem_append_right _ hv) (by simp [hc])
        have hnotin : ∀ w ∈ txSpends tx, ¬ w.txid = v.txid := by
          intro w hw hc
          exact (List.disjoint_left.mp hsn.2.2)
            (List.mem_map.mpr ⟨w, hw, rfl⟩) (hc ▸ List.mem_map.mpr ⟨v, hv, rfl⟩)
        rw [hchar1 v.txid, if_neg hvne, findSpend_eq_none _ _ hnotin]
        exact hex v (List.mem_append_right _ hv))
      hsn.2.1
      hidn.2
      (fun v hv hc => hnointra v (List.mem_append_right _ hv) (List.mem_cons_of_mem _ hc))
      (by
        intro tx2 htx2
        have h1 : ¬ tx.id = tx2.id := fun hc =>
          hidn.1 (hc ▸ List.mem_map.mpr ⟨tx2, htx2, rfl⟩)
        have h2 : ∀ w ∈ txSpends tx, ¬ w.txid = tx2.id := by
          intro w hw hc
          exact hnointra w (List.mem_append_left _ hw)
            (List.mem_cons_of_mem _ (hc ▸ List.mem_map.mpr ⟨tx2, htx2, rfl⟩))
        rw [hchar1 tx2.id, if_neg h1, findSpend_eq_none _ _ h2]
        exact hfresh tx2 (List.mem_cons_of_mem _ htx2))
    refine ⟨u2, ?_, fun t => ?_⟩
    · rw [utxoUpdate, List.foldlM_cons, heq1]
      exact heq2
    · rw [hchar2 t]
      by_cases h1 : tx.id = t
      · rw [show findTxBlock (tx :: rest) t = some tx from
          List.find?_cons_of_pos _ (by simpa using h1)]
        rw [findTxBlock_eq_none_of_not_mem rest t (h1 ▸ hidn.1),
          findSpend_eq_none (blockSpends rest) t
            (fun v hv hc => hrestspend_ne_txid v hv (h1 ▸ hc)),
          hchar1 t, if_pos h1]
      · rw [show findTxBlock (tx :: rest) t = findTxBlock rest t from
          List.find?_cons_of_neg _ (by simpa using h1)]
        cases hfb : findTxBlock rest t with
        | some tx2 => rfl
        | none =>
          rw [show findSpend (blockSpends (tx :: rest)) t =
              (findSpend (txSpends tx) t).or (findSpend (blockSpends rest) t) from by
            rw [blockSpends_cons]; exact List.find?_append]
          cases hfs1 : findSpend (txSpends tx) t with
          | some v =>
            have hnone2 : findSpend (blockSpends rest) t = none := by
              obtain ⟨hvt, hvmem⟩ := findSpend_some_facts _ _ _ hfs1
              refine findSpend_eq_none _ _ (fun w hw hc => ?_)
              exact (List.disjoint_left.mp hsn.2.2)
                (List.mem_map.mpr ⟨v, hvmem, rfl⟩)
                ((hvt.trans hc.symm) ▸ List.mem_map.mpr ⟨w, hw, rfl⟩)
            rw [hnone2, hchar1 t, if_neg h1, hfs1]
            simp [Option.or]
          | none =>
            cases hfs2 : findSpend (blockSpends rest) t with
            | none =>
              rw [hchar1 t, if_neg h1, hfs1]
              simp [Option.or]
            | some v =>
              obtain ⟨hvt, hvmem⟩ := findSpend_some_facts _ _ _ hfs2
              have hget : mapGet u1 t = mapGet u t := by
                rw [hchar1 t, if_neg h1, hfs1]
              simp only [Option.or, updatedEntry, hget]

/-- Filtering against an empty spent list keeps everything. -/
theorem keptOutputs_nil (outs : List TxOutput) : ∀ (i : Nat),
    keptOutputs [] outs i = outs := by
  induction outs with
  | nil => intro i; rfl
  | cons out rest ih => intro i; simp [keptOutputs, ih]

/-- With pairwise-distinct referenced ids, the single input found for `t`
is the only reference to it. -/
theorem refsTo_eq_single (vins : List TxInput) : ∀ (t : List Nat) (v : TxInput),
    ((vins.map (fun v => v.txid)).Nodup) → findSpend vins t = some v →
    refsTo vins t = [v.vout] := by
  induction vins with
  | nil => intro t v _ h; exact absurd h (by simp [findSpend])
  | cons w rest ih =>
    intro t v hnodup hfs
    rw [List.map_cons] at hnodup
    have hn := List.nodup_cons.mp hnodup
    by_cases hw : w.txid = t
    · have hv : w = v := by
        unfold findSpend at hfs
        rw [List.find?_cons_of_pos _ (by simpa using hw)] at hfs
        exact Option.some.inj hfs
      subst hv
      have hrest : refsTo rest t = [] := by
        refine refsTo_eq_nil _ _ (fun x hx hc => ?_)
        exact hn.1 ((hw.trans hc.symm) ▸ List.mem_map.mpr ⟨x, hx, rfl⟩)
      simp [refsTo, List.filter_cons, hw, hrest]
      simpa [refsTo] using hrest
    · unfold findSpend at hfs
      rw [List.find?_cons_of_neg _ (by simpa using hw)] at hfs
      rw [show refsTo (w :: rest) t = refsTo rest t from by
        simp [refsTo, List.filter_cons, hw]]
      exact ih t v hn.2 hfs

/-- C2 amended.  On a well-formed chain, `reindex()` (the full rescan)
followed by `update(block)` yields, at every key, the same chainstate
entry as a full rescan after the commit — provided each transaction the
block spends from is spent for the first time and by exactly one input,
the referenced transactions exist with non-empty output lists, and the
block's transactions have non-empty output lists.  (Without the
first-spend condition the two sides genuinely diverge: `update` drops
outputs by position in the already-shrunken stored list, the rescan by
original output index.) -/
theorem utxoUpdate_matches_rescan (chain : List (List Transaction))
    (blk : List Transaction)
    (hwf : WFChain (blk :: chain))
    (hfirst : ∀ v ∈ blockSpends blk, refsTo (chainSpends chain) v.txid = [])
    (hsingle : ((blockSpends blk).map (fun v => v.txid)).Nodup)
    (hexists : ∀ v ∈ blockSpends blk, ∃ tx, findTxChain chain v.txid = some tx ∧
      tx.vout ≠ [])
    (hvout : ∀ tx ∈ blk, tx.vout ≠ []) :
    ∃ u1, utxoUpdate (findUTXO chain) blk = some u1 ∧
      ∀ t, mapGet u1 t = mapGet (findUTXO (blk :: chain)) t := by
  obtain ⟨hnodup, hdisj, hself, hrestrefs, hwfrest⟩ := hwf
  have hentry : ∀ v ∈ blockSpends blk, ∃ tx, findTxChain chain v.txid = some tx ∧
      mapGet (findUTXO chain) v.txid = some tx.vout ∧ tx.vout ≠ [] := by
    intro v hv
    obtain ⟨tx, hft, hvne⟩ := hexists v hv
    refine ⟨tx, hft, ?_, hvne⟩
    rw [findUTXO_eq_spec chain hwfrest v.txid]
    unfold specLookup
    rw [hft]
    simp only [hfirst v hv, keptOutputs_nil]
    rw [if_neg hvne]
  have hex : ∀ v ∈ blockSpends blk, (mapGet (findUTXO chain) v.txid).isSome := by
    intro v hv
    obtain ⟨tx, _, h, _⟩ := hentry v hv
    simp [h]
  have hfresh : ∀ tx2 ∈ blk, mapGet (findUTXO chain) tx2.id = none := by
    intro tx2 htx2
    have hmem : tx2.id ∈ blockIds blk := by
      unfold blockIds; exact List.mem_map.mpr ⟨tx2, htx2, rfl⟩
    have hnone : findTxChain chain tx2.id = none := by
      cases hfc : findTxChain chain tx2.id with
      | none => rfl
      | some tx3 => exact absurd (findTxChain_mem chain _ _ hfc) (hdisj tx2.id hmem)
    rw [findUTXO_eq_spec chain hwfrest]
    unfold specLookup
    rw [hnone]
  obtain ⟨u1, hequ, hchar⟩ := utxoUpdate_lookup blk (findUTXO chain)
    hex hsingle hnodup hself hfresh
  refine ⟨u1, hequ, fun t => ?_⟩
  rw [hchar t,
    findUTXO_eq_spec (blk :: chain) ⟨hnodup, hdisj, hself, hrestrefs, hwfrest⟩ t]
  unfold specLookup
  rw [findTxChain_cons]
  cases hfb : findTxBlock blk t with
  | some tx =>
    obtain ⟨hid, htmem⟩ := findTxBlock_some_facts blk t tx hfb
    have r1 : refsTo (blockSpends blk) t = [] :=
      refsTo_eq_nil _ _ (fun v hv hc => hself v hv (hc ▸ htmem))
    have r2 : refsTo (chainSpends chain) t = [] :=
      refsTo_eq_nil _ _ (fun v hv hc => hrestrefs v hv (hc ▸ htmem))
    rw [chainSpends_cons, refsTo_append, r1, r2]
    simp only [Option.or, List.append_nil, keptOutputs_nil]
    rw [if_neg (hvout tx (List.mem_of_find?_eq_some hfb))]
  | none =>
    simp only [Option.or_none, Option.none_or]
    cases hfs : findSpend (blockSpends blk) t with
    | some v =>
      obtain ⟨hvt, hvmem⟩ := findSpend_some_facts _ _ _ hfs
      subst hvt
      obtain ⟨tx0, hft, hstored, hvne⟩ := hentry v hvmem
      rw [hft]
      have hrefs : refsTo (chainSpends (blk :: chain)) v.txid = [v.vout] := by
        rw [chainSpends_cons, refsTo_append, hfirst v hvmem, List.append_nil]
        exact refsTo_eq_single (blockSpends blk) v.txid v hsingle hfs
      rw [hrefs]
      simp only [updatedEntry, hstored]
    | none =>
      have hnorefs : refsTo (blockSpends blk) t = [] := by
        refine refsTo_eq_nil _ _ (fun v hv hc => ?_)
        have := List.find?_eq_none.mp hfs v hv
        simp [hc] at this
      rw [findUTXO_eq_spec chain hwfrest t]
      unfold specLookup
      rw [chainSpends_cons, refsTo_append, hnorefs, List.nil_append]

/-- C2 counterexample: after `reindex()` the entry for `exT1` is the
one-element list `[(40, [10])]` (original index 1; index 0 was spent by
`exT2`).  `update` drops position `vin.Vout = 1` from that stored list —
nothing, since the list has only position 0 — and keeps the entry, while
the full rescan after the commit sees both outputs of `exT1` spent and
stores no entry at all: the two chainstates differ at key `[1]`. -/
theorem utxoUpdate_diverges_from_rescan :
    (utxoUpdate (findUTXO exChain) exBlock).map (fun u => mapGet u [1]) =
      some (some [⟨40, [10]⟩]) ∧
    mapGet (findUTXO (exBlock :: exChain)) [1] = none := by
  constructor
  · decide
  · decide

/-- C2 witness: the amended equivalence applied at a concrete conforming
run — the block `[exCb2, exT1]` spends `(exT0, 0)` for the first time on
the genesis-only chain. -/
theorem utxoUpdate_matches_rescan_witness :
    ∃ u1, utxoUpdate (findUTXO [[exT0]]) [exCb2, exT1] = some u1 ∧
      ∀ t, mapGet u1 t = mapGet (findUTXO ([exCb2, exT1] :: [[exT0]])) t :=
  utxoUpdate_matches_rescan [[exT0]] [exCb2, exT1]
    (by simp only [WFChain, NoRefsInto]; decide)
    (by decide)
    (by decide)
    (by
      intro v hv
      have hveq : v = ⟨[0], 0, [5], [6]⟩ := by
        rw [show blockSpends [exCb2, exT1] = [⟨[0], 0, [5], [6]⟩] from by decide] at hv
        exact List.mem_singleton.mp hv
      subst hveq
      exact ⟨exT0, by decide, by decide⟩)
    (by decide)

end BGo
